import Mathlib

/-!
Verification of the relay engine of the `new-api-backend` repository.

The development shallowly embeds, in Lean 4:

* the retry decision `shouldRetry` and the retry loop of `controller/relay.go`,
  together with the pre-consume / refund discipline of the `Relay` pipeline;
* the conditional JSON rewriter (`ApplyParamOverride`, `applyOperations`,
  `checkConditions`, `processNegativeIndex`, …) of the `common` package;
* the sensitive-information mask `MaskSensitiveInfo` of `common/str.go`.

Pure Go functions become Lean functions.  JSON documents are represented by an
inductive `Json` value (the Go code passes JSON text through `gjson`/`sjson`;
the model works on the parsed tree and reimplements the dotted-path getters and
setters those libraries provide).  Fallible Go functions returning
`(T, error)` become `Except String T`.  Machine integers are modelled by
`Nat`/`Int`; no arithmetic in the modelled code can overflow in practice.
-/

/- ## Error taxonomy and retry decision (`controller/relay.go`) -/

/-- Modelled from the spec: the `types` package is not part of the sources, so
`types.NewAPIError` is taken from the specification's data model, which
describes it as a record carrying an HTTP status plus a `skip_retry` and a
`channel_error` flag (`IsSkipRetryError` / `IsChannelError` read those flags). -/
structure NewAPIError where
  statusCode : Nat
  skipRetry : Bool
  channelError : Bool

/-- The slice of the request context read by `shouldRetry`: whether the caller
pinned a specific channel (`c.Get("specific_channel_id")`). -/
structure RelayContext where
  hasSpecificChannelId : Bool

/-- Embeds `shouldRetry` from `controller/relay.go`.  The Go receiver order of
checks is kept exactly: nil error, channel error, skip-retry flag, exhausted
budget, pinned channel, then the status-code cases. -/
def shouldRetry (ctx : RelayContext) (openaiErr : Option NewAPIError) (retryTimes : Int) : Bool :=
  match openaiErr with
  | none => false
  | some e =>
    if e.channelError then true
    else if e.skipRetry then false
    else if retryTimes ≤ 0 then false
    else if ctx.hasSpecificChannelId then false
    else if e.statusCode = 429 then true
    else if e.statusCode = 307 then true
    else if e.statusCode / 100 = 5 then
      if e.statusCode = 504 ∨ e.statusCode = 524 then false else true
    else if e.statusCode = 400 then false
    else if e.statusCode = 408 then false
    else if e.statusCode / 100 = 2 then false
    else true

/- ## The retry loop and the pre-consume / refund protocol (`Relay`) -/

/-- Environment for one iteration of the retry loop: the outcome of
`getChannel` (an error, or a usable channel) and, when a channel was obtained,
the outcome of the dialect handler dispatch. -/
structure LoopStep where
  getChannelErr : Option NewAPIError
  handlerErr : Option NewAPIError

/-- Embeds the `for i := 0; i <= common.RetryTimes; i++` loop of `Relay`.
Returns the value `newAPIError` holds when the loop is left, together with the
number of dispatch attempts performed.  A `getChannel` failure breaks out of
the loop before dispatching; a successful dispatch returns; otherwise the loop
continues exactly when `shouldRetry(c, err, RetryTimes-i)` holds and the next
index still satisfies the loop guard. -/
def relayLoop (ctx : RelayContext) (steps : Nat → LoopStep) (retryTimes : Nat) (i : Nat) :
    Option NewAPIError × Nat :=
  match (steps i).getChannelErr with
  | some e => (some e, 0)
  | none =>
    match (steps i).handlerErr with
    | none => (none, 1)
    | some e =>
      if h : shouldRetry ctx (some e) ((retryTimes : Int) - (i : Int)) = true ∧ i < retryTimes then
        let r := relayLoop ctx steps retryTimes (i + 1)
        (r.1, r.2 + 1)
      else (some e, 1)
termination_by retryTimes - i
decreasing_by omega

/-- Environment of one run of the `Relay` pipeline: the outcome of each stage
before the retry loop, then the loop steps.  `preConsume` models
`service.PreConsumeQuota`; following the spec (the service package is not in
the sources), `.ok q` means pre-consumption succeeded and set
`RelayInfo.FinalPreConsumedQuota = q`, while on `.error` (and on every earlier
failing stage) the field keeps its zero value. -/
structure PipelineEnv where
  ctx : RelayContext
  validateErr : Option NewAPIError
  genRelayInfoErr : Option NewAPIError
  shouldCheckPromptSensitive : Bool
  sensitiveDetected : Bool
  sensitiveErr : NewAPIError
  countTokenErr : Option NewAPIError
  priceErr : Option NewAPIError
  preConsume : Except NewAPIError Int
  steps : Nat → LoopStep
  retryTimes : Nat

/-- Observable outcome of a `Relay` run: the error the deferred error-rendering
sees, the value of `RelayInfo.FinalPreConsumedQuota`, and whether
`service.ReturnPreConsumedQuota` was invoked by the refund defer. -/
structure RelayResult where
  finalError : Option NewAPIError
  finalPreConsumedQuota : Int
  refundIssued : Bool

/-- Embeds the control flow of `Relay` in `controller/relay.go`: request
validation, relay-info generation, the optional sensitive-word check, token
counting, pricing, pre-consumption, then the retry loop.  The refund defer is
registered only after `PreConsumeQuota` returns nil, and fires iff at exit
`newAPIError != nil && relayInfo.FinalPreConsumedQuota != 0`. -/
def Relay (env : PipelineEnv) : RelayResult :=
  match env.validateErr with
  | some e => ⟨some e, 0, false⟩
  | none =>
    match env.genRelayInfoErr with
    | some e => ⟨some e, 0, false⟩
    | none =>
      if env.shouldCheckPromptSensitive && env.sensitiveDetected then
        ⟨some env.sensitiveErr, 0, false⟩
      else
        match env.countTokenErr with
        | some e => ⟨some e, 0, false⟩
        | none =>
          match env.priceErr with
          | some e => ⟨some e, 0, false⟩
          | none =>
            match env.preConsume with
            | .error e => ⟨some e, 0, false⟩
            | .ok q =>
              let out := relayLoop env.ctx env.steps env.retryTimes 0
              ⟨out.1, q, out.1.isSome && q != 0⟩

/-- A pipeline run fails before pre-consumption succeeded: some stage up to and
including `PreConsumeQuota` itself reported an error. -/
def failsBeforePreConsumeSuccess (env : PipelineEnv) : Bool :=
  env.validateErr.isSome || env.genRelayInfoErr.isSome ||
  (env.shouldCheckPromptSensitive && env.sensitiveDetected) ||
  env.countTokenErr.isSome || env.priceErr.isSome ||
  (match env.preConsume with | .error _ => true | .ok _ => false)

/- ## JSON documents and the gjson/sjson path primitives -/

/-- Parsed JSON value.  The Go rewriter manipulates JSON text through the
`gjson`/`sjson` libraries; the model works on the parsed tree.  Numbers are
modelled by `Rat` (the claims under verification never depend on float64
rounding). -/
inductive Json where
  | null : Json
  | bool (b : Bool) : Json
  | num (q : Rat) : Json
  | str (s : String) : Json
  | arr (xs : List Json) : Json
  | obj (fields : List (String × Json)) : Json

/-- The `gjson.Type` enumeration: Null, False, Number, String, True, JSON. -/
inductive GjsonType where
  | gNull : GjsonType
  | gFalse : GjsonType
  | gNumber : GjsonType
  | gString : GjsonType
  | gTrue : GjsonType
  | gJSON : GjsonType
  deriving DecidableEq

/-- The `gjson.Type` of a parsed value (objects and arrays are both `JSON`). -/
def jsonType : Json → GjsonType
  | .null => .gNull
  | .bool false => .gFalse
  | .bool true => .gTrue
  | .num _ => .gNumber
  | .str _ => .gString
  | .arr _ => .gJSON
  | .obj _ => .gJSON

/-- How `fmt` renders a `gjson.Type` (the `%v` verb used in error messages). -/
def GjsonType.name : GjsonType → String
  | .gNull => "Null"
  | .gFalse => "False"
  | .gNumber => "Number"
  | .gString => "String"
  | .gTrue => "True"
  | .gJSON => "JSON"

/-- Decimal rendering of the model's numbers (the Go code slices the raw
numeric literal out of the source text; canonical rendering is an adequate
model for the claims, none of which compares stringified numbers). -/
def renderRat (q : Rat) : String :=
  if q.den = 1 then toString q.num else toString q

mutual
/-- Compact JSON serialisation, modelling `gjson.Result.Raw` for composite
values (whitespace-free, fields in tree order). -/
def renderJson : Json → String
  | .null => "null"
  | .bool true => "true"
  | .bool false => "false"
  | .num q => renderRat q
  | .str s => "\"" ++ s ++ "\""
  | .arr xs => "[" ++ renderList xs ++ "]"
  | .obj fs => "\x7b" ++ renderFields fs ++ "\x7d"

def renderList : List Json → String
  | [] => ""
  | [x] => renderJson x
  | x :: y :: rest => renderJson x ++ "," ++ renderList (y :: rest)

def renderFields : List (String × Json) → String
  | [] => ""
  | [(k, v)] => "\"" ++ k ++ "\":" ++ renderJson v
  | (k, v) :: y :: rest => "\"" ++ k ++ "\":" ++ renderJson v ++ "," ++ renderFields (y :: rest)
end

/-- The string `gjson.Result.String()` yields: empty for Null, `true`/`false`
for booleans, the numeric literal for numbers, the content for strings, and
the raw JSON for composites. -/
def gjsonString : Json → String
  | .null => ""
  | .bool true => "true"
  | .bool false => "false"
  | .num q => renderRat q
  | .str s => s
  | j => renderJson j

/-- First field of an object with the given key (`gjson` returns the first
match on duplicate keys; Go maps cannot hold duplicates at all). -/
def lookupField : List (String × Json) → String → Option Json
  | [], _ => none
  | (k, v) :: rest, key => if k = key then some v else lookupField rest key

/-- Replace the first field with the given key, appending when absent. -/
def setField : List (String × Json) → String → Json → List (String × Json)
  | [], key, v => [(key, v)]
  | (k, w) :: rest, key, v =>
    if k = key then (key, v) :: rest else (k, w) :: setField rest key v

/-- Remove the first field with the given key. -/
def removeField : List (String × Json) → String → List (String × Json)
  | [], _ => []
  | (k, w) :: rest, key => if k = key then rest else (k, w) :: removeField rest key

/-- Does the string denote a (non-negative) decimal array index? -/
def isNatString (s : String) : Bool :=
  !s.data.isEmpty && s.data.all Char.isDigit

/-- Decimal digits to `Nat` (the `strconv.Atoi` core; overflow is ignored,
matching practical inputs). -/
def strToNat (s : String) : Nat :=
  s.data.foldl (fun n c => n * 10 + (c.toNat - 48)) 0

/-- Split a character list on a separator character (`strings.Split` for a
one-character separator, which is the only kind the modelled code uses). -/
def splitOnChar (sep : Char) : List Char → List (List Char)
  | [] => [[]]
  | c :: rest =>
    if c = sep then [] :: splitOnChar sep rest
    else
      match splitOnChar sep rest with
      | [] => [[c]]
      | g :: gs => (c :: g) :: gs

/-- Join strings with a separator (`strings.Join`). -/
def joinSep (sep : String) : List String → String
  | [] => ""
  | [x] => x
  | x :: y :: rest => x ++ sep ++ joinSep sep (y :: rest)

/-- ASCII lower-casing (`strings.ToLower` on the ASCII inputs in play). -/
def goToLower (s : String) : String := String.mk (s.data.map Char.toLower)

/-- ASCII upper-casing (`strings.ToUpper` on the ASCII inputs in play). -/
def goToUpper (s : String) : String := String.mk (s.data.map Char.toUpper)

/-- Dotted paths split on `.` (the plain-key/index subset of the `gjson` path
language used by the rewriter; wildcards and modifiers are not modelled). -/
def splitPath (path : String) : List String :=
  (splitOnChar '.' path.data).map String.mk

/-- Walk a parsed value along path segments: object fields by key, array
elements by decimal index. -/
def getSegs : Json → List String → Option Json
  | v, [] => some v
  | .obj fs, s :: rest =>
    match lookupField fs s with
    | some v => getSegs v rest
    | none => none
  | .arr xs, s :: rest =>
    if isNatString s then
      match xs.get? (strToNat s) with
      | some v => getSegs v rest
      | none => none
    else none
  | _, _ :: _ => none

/-- Models `gjson.Get` on the dotted-path subset; an empty path resolves to
nothing. -/
def gjsonGet (jsonDoc : Json) (path : String) : Option Json :=
  if path = "" then none else getSegs jsonDoc (splitPath path)

/-- Nested single-field objects for the missing tail of a `set` path
(`sjson` creates intermediate objects). -/
def buildNested : List String → Json → Json
  | [], v => v
  | s :: rest, v => .obj [(s, buildNested rest v)]

/-- Set along path segments, modelling `sjson.Set`: descend through objects
(creating missing children), replace array elements by index, pad an array
with nulls when setting past its end, append on index `-1`, and replace a
scalar parent by a fresh object. -/
def setSegs : Json → List String → Json → Except String Json
  | _, [], v => .ok v
  | .obj fs, s :: rest, v =>
    match lookupField fs s with
    | some child =>
      match setSegs child rest v with
      | .error e => .error e
      | .ok c => .ok (.obj (setField fs s c))
    | none => .ok (.obj (fs ++ [(s, buildNested rest v)]))
  | .arr xs, s :: rest, v =>
    if s = "-1" then
      match rest with
      | [] => .ok (.arr (xs ++ [v]))
      | _ => .error "cannot descend through appended element"
    else if isNatString s then
      let i := strToNat s
      if h : i < xs.length then
        match setSegs (xs.get ⟨i, h⟩) rest v with
        | .error e => .error e
        | .ok c => .ok (.arr (xs.set i c))
      else
        match rest with
        | [] => .ok (.arr (xs ++ List.replicate (i - xs.length) .null ++ [v]))
        | _ => .error "cannot set nested path beyond array length"
    else .error ("cannot set array element for key " ++ s)
  | _, s :: rest, v => .ok (.obj [(s, buildNested rest v)])

/-- Models `sjson.Set` (empty paths are rejected by sjson). -/
def sjsonSet (jsonDoc : Json) (path : String) (v : Json) : Except String Json :=
  if path = "" then .error "path cannot be empty"
  else setSegs jsonDoc (splitPath path) v

/-- Delete along path segments; a missing path leaves the value unchanged
(`sjson.Delete` semantics), `-1` removes the last array element. -/
def delSegs : Json → List String → Json
  | .obj fs, [s] => .obj (removeField fs s)
  | .arr xs, [s] =>
    if s = "-1" then .arr xs.dropLast
    else if isNatString s then .arr (xs.eraseIdx (strToNat s))
    else .arr xs
  | .obj fs, s :: rest =>
    match lookupField fs s with
    | some child => .obj (setField fs s (delSegs child rest))
    | none => .obj fs
  | .arr xs, s :: rest =>
    if isNatString s then
      let i := strToNat s
      match xs.get? i with
      | some child => .arr (xs.set i (delSegs child rest))
      | none => .arr xs
    else .arr xs
  | v, _ => v

/-- Models `sjson.Delete`. -/
def sjsonDelete (jsonDoc : Json) (path : String) : Except String Json :=
  if path = "" then .error "path cannot be empty"
  else .ok (delSegs jsonDoc (splitPath path))

/- ## Negative-index path rewriting (`processNegativeIndex`) -/

/-- Successive non-overlapping matches of the pattern "a dot followed by a
minus sign and one or more digits" (the Go regexp `\.(-\d+)` under
`FindAllStringSubmatch`), scanning left to right and resuming after each
match; each match is reported by its digit run.  Structural recursion on a
fuel bound (every step consumes at least one character, so the wrapper's fuel
always suffices). -/
def scanNegMatchesAux : Nat → List Char → List (List Char)
  | 0, _ => []
  | _ + 1, [] => []
  | fuel + 1, c :: rest =>
    match rest with
    | [] => scanNegMatchesAux fuel []
    | c2 :: rest2 =>
      if c = '.' ∧ c2 = '-' then
        let ds := rest2.takeWhile Char.isDigit
        if ds.isEmpty then scanNegMatchesAux fuel (c2 :: rest2)
        else ds :: scanNegMatchesAux fuel (rest2.drop ds.length)
      else scanNegMatchesAux fuel (c2 :: rest2)

/-- The matches of `\.(-\d+)` over a whole string. -/
def scanNegMatches (s : List Char) : List (List Char) :=
  scanNegMatchesAux (s.length + 1) s

/-- Value of a digit run (the `strconv.Atoi` of the digits). -/
def digitsToNat (ds : List Char) : Nat :=
  ds.foldl (fun n c => n * 10 + (c.toNat - 48)) 0

/-- Decimal digit characters of a natural number (`strconv.Itoa`), with a
fuel bound for structural recursion (dividing by ten strictly shrinks the
number, so the wrapper's fuel always suffices). -/
def natDigitsAux : Nat → Nat → List Char
  | 0, _ => []
  | fuel + 1, n =>
    if n < 10 then [Char.ofNat (48 + n)]
    else natDigitsAux fuel (n / 10) ++ [Char.ofNat (48 + n % 10)]

/-- Decimal digit characters of a natural number. -/
def natDigits (n : Nat) : List Char :=
  natDigitsAux (n + 1) n

/-- Does `pat` occur as a contiguous substring of `s`? -/
def containsSub (s pat : List Char) : Bool :=
  pat.isPrefixOf s ||
    match s with
    | [] => false
    | _ :: rest => containsSub rest pat

/-- The prefix of `s` before the first occurrence of `pat`, or all of `s` when
`pat` does not occur (`strings.Split(s, pat)[0]` for non-empty `pat`). -/
def splitFirst (s pat : List Char) : List Char :=
  if pat.isPrefixOf s then []
  else
    match s with
    | [] => []
    | c :: rest => c :: splitFirst rest pat

/-- Replace the first occurrence of `pat` in `s` by `rep`, if any
(`strings.Replace(s, pat, rep, 1)` for non-empty `pat`). -/
def replaceFirst (s pat rep : List Char) : List Char :=
  if pat.isPrefixOf s then rep ++ s.drop pat.length
  else
    match s with
    | [] => []
    | c :: rest => c :: replaceFirst rest pat rep

/-- Embeds `processNegativeIndex` (character-level model of its regexp and
string operations).  For each match `.-k` of the scan, the array path is the
prefix of the *original* path before the first occurrence of the text `-k`
(with a trailing dot trimmed); when that path addresses an array and
`len - k` is in range, the first occurrence of `.-k` in the evolving result
is replaced by the resolved index. -/
def processNegativeIndexL (jsonDoc : Json) (path : List Char) : List Char :=
  (scanNegMatches path).foldl (fun result ds =>
    let fullMatch : List Char := '.' :: '-' :: ds
    let negIndex : List Char := '-' :: ds
    let index : Int := -(digitsToNat ds : Int)
    let arrayPath0 := splitFirst path negIndex
    let arrayPath := if arrayPath0.getLast? = some '.' then arrayPath0.dropLast else arrayPath0
    match gjsonGet jsonDoc (String.mk arrayPath) with
    | some (.arr xs) =>
      let length : Int := (xs.length : Int)
      let actualIndex := length + index
      if 0 ≤ actualIndex ∧ actualIndex < length then
        replaceFirst result fullMatch ('.' :: natDigits actualIndex.toNat)
      else result
    | _ => result) path

/-- `processNegativeIndex` on strings. -/
def processNegativeIndex (jsonDoc : Json) (path : String) : String :=
  String.mk (processNegativeIndexL jsonDoc path.data)

/- ## Condition evaluation -/

/-- One entry of an operation's condition list (`ConditionOperation`). -/
structure ConditionOperation where
  path : String
  mode : String
  value : Json
  invert : Bool
  passMissingKey : Bool

/-- One entry of the rewriter program (`ParamOperation`; the Go fields `From`
and `To` are named `fromPath`/`toPath` because `from` is reserved in Lean). -/
structure ParamOperation where
  path : String
  mode : String
  value : Json
  keepOrigin : Bool
  fromPath : String
  toPath : String
  conditions : List ConditionOperation
  logic : String

/-- Embeds `compareNumeric`: both sides must be numbers, otherwise an error. -/
def compareNumeric (jsonValue targetValue : Json) (operator : String) : Except String Bool :=
  match jsonValue, targetValue with
  | .num jsonNum, .num targetNum =>
    match operator with
    | "gt" => .ok (decide (jsonNum > targetNum))
    | "gte" => .ok (decide (jsonNum ≥ targetNum))
    | "lt" => .ok (decide (jsonNum < targetNum))
    | "lte" => .ok (decide (jsonNum ≤ targetNum))
    | _ => .error ("unsupported numeric operator: " ++ operator)
  | _, _ =>
    .error ("numeric comparison requires both values to be numbers, got " ++
      (jsonType jsonValue).name ++ " and " ++ (jsonType targetValue).name)

/-- Is the value a JSON boolean (`gjson.True` or `gjson.False`)? -/
def isBoolType : Json → Bool
  | .bool _ => true
  | _ => false

/-- `gjson.Result.Bool()` as used on boolean results. -/
def jsonBool : Json → Bool
  | .bool b => b
  | _ => false

/-- Embeds `compareEqual`: boolean pairs are special-cased, differing types
are an error, otherwise scalar equality (composites compare their raw text). -/
def compareEqual (jsonValue targetValue : Json) : Except String Bool :=
  if isBoolType jsonValue && isBoolType targetValue then
    .ok (jsonBool jsonValue == jsonBool targetValue)
  else if jsonType jsonValue ≠ jsonType targetValue then
    .error ("compare for different types, got " ++
      (jsonType jsonValue).name ++ " and " ++ (jsonType targetValue).name)
  else
    match jsonValue, targetValue with
    | .bool a, .bool b => .ok (a == b)
    | .num a, .num b => .ok (a == b)
    | .str a, .str b => .ok (a == b)
    | a, b => .ok (gjsonString a == gjsonString b)

/-- Embeds `compareGjsonValues`: dispatch on the (lower-cased) mode. -/
def compareGjsonValues (jsonValue targetValue : Json) (mode : String) : Except String Bool :=
  match mode with
  | "full" => compareEqual jsonValue targetValue
  | "prefix" => .ok ((gjsonString targetValue).data.isPrefixOf (gjsonString jsonValue).data)
  | "suffix" => .ok ((gjsonString targetValue).data.isSuffixOf (gjsonString jsonValue).data)
  | "contains" => .ok (containsSub (gjsonString jsonValue).data (gjsonString targetValue).data)
  | "gt" => compareNumeric jsonValue targetValue "gt"
  | "gte" => compareNumeric jsonValue targetValue "gte"
  | "lt" => compareNumeric jsonValue targetValue "lt"
  | "lte" => compareNumeric jsonValue targetValue "lte"
  | _ => .error ("unsupported comparison mode: " ++ mode)

/-- Embeds `checkSingleCondition`: resolve negative indices, fetch the value
(missing falls back to `pass_missing_key`), compare against the condition's
value (Go marshals and re-parses it, the identity on parsed values), wrap
comparison errors, and apply `invert`. -/
def checkSingleCondition (jsonDoc : Json) (condition : ConditionOperation) : Except String Bool :=
  let path := processNegativeIndex jsonDoc condition.path
  match gjsonGet jsonDoc path with
  | none => .ok condition.passMissingKey
  | some value =>
    match compareGjsonValues value condition.value (goToLower condition.mode) with
    | .error e => .error ("comparison failed for path " ++ condition.path ++ ": " ++ e)
    | .ok result => .ok (if condition.invert then !result else result)

/-- Evaluate every condition in order, stopping at the first error. -/
def evalConditionList (jsonDoc : Json) : List ConditionOperation → Except String (List Bool)
  | [] => .ok []
  | c :: rest =>
    match checkSingleCondition jsonDoc c with
    | .error e => .error e
    | .ok r =>
      match evalConditionList jsonDoc rest with
      | .error e => .error e
      | .ok rs => .ok (r :: rs)

/-- Embeds `checkConditions`: no conditions passes; otherwise all results are
computed and combined with AND (all) or, by default, OR (any). -/
def checkConditions (jsonDoc : Json) (conditions : List ConditionOperation) (logic : String) :
    Except String Bool :=
  if conditions.isEmpty then .ok true
  else
    match evalConditionList jsonDoc conditions with
    | .error e => .error e
    | .ok results =>
      if goToUpper logic = "AND" then .ok (results.all id) else .ok (results.any id)

/- ## Operation execution (`applyOperations` and helpers) -/

/-- Embeds `moveValue`: the source must exist; its value is set at the target
path, then deleted from the source path. -/
def moveValue (jsonDoc : Json) (fromPath toPath : String) : Except String Json :=
  match gjsonGet jsonDoc fromPath with
  | none => .error ("source path does not exist: " ++ fromPath)
  | some sourceValue =>
    match sjsonSet jsonDoc toPath sourceValue with
    | .error e => .error e
    | .ok result => sjsonDelete result fromPath

/-- How `fmt.Sprintf` with the `%v` verb renders a decoded JSON value (model:
composites use their JSON serialisation, which only differs from Go's map
rendering in cases no claim exercises). -/
def goStringOf : Json → String
  | .str s => s
  | .bool true => "true"
  | .bool false => "false"
  | .null => "<nil>"
  | .num q => renderRat q
  | j => renderJson j

/-- Embeds `mergeObjects`: the current value and the new value must both be
objects; new keys overwrite unless `keep_origin` is set and the existing value
is non-nil. -/
def mergeObjects (jsonDoc : Json) (path : String) (value : Json) (keepOrigin : Bool) :
    Except String Json :=
  match gjsonGet jsonDoc path with
  | some (.obj currentFields) =>
    match value with
    | .obj newFields =>
      let merged := newFields.foldl (fun acc kv =>
        match lookupField acc kv.1 with
        | none => acc ++ [kv]
        | some .null => setField acc kv.1 kv.2
        | some _ => if keepOrigin then acc else setField acc kv.1 kv.2) currentFields
      sjsonSet jsonDoc path (.obj merged)
    | _ => .error "json: cannot unmarshal value into map"
  | _ => .error "json: cannot unmarshal current value into map"

/-- Embeds `modifyValue`: arrays get element-wise concatenation (an array
value is flattened), strings get string concatenation, objects get a merge;
anything else is an unsupported-type error naming the current `gjson` type
(`Null` when the path is missing). -/
def modifyValue (jsonDoc : Json) (path : String) (value : Json)
    (keepOrigin isPrepend : Bool) : Except String Json :=
  match gjsonGet jsonDoc path with
  | some (.arr current) =>
    let added := match value with | .arr vs => vs | v => [v]
    let newArray := if isPrepend then added ++ current else current ++ added
    sjsonSet jsonDoc path (.arr newArray)
  | some (.str current) =>
    let valueStr := goStringOf value
    let newStr := if isPrepend then valueStr ++ current else current ++ valueStr
    sjsonSet jsonDoc path (.str newStr)
  | some (.obj _) => mergeObjects jsonDoc path value keepOrigin
  | cur =>
    .error ("operation not supported for type: " ++
      (match cur with | some v => (jsonType v).name | none => "Null"))

/-- Error wrapping applied by `applyOperations` to a failing operation body
(`operation %s failed: %v`). -/
def wrapOpError (mode : String) : Except String Json → Except String Json
  | .error e => .error ("operation " ++ mode ++ " failed: " ++ e)
  | .ok v => .ok v

/-- The body of the `applyOperations` loop once the condition gate has passed:
resolve negative indices in the paths, dispatch on the mode (an unknown mode
is reported unwrapped, exactly as in the source), and wrap any failure. -/
def execOperation (jsonDoc : Json) (op : ParamOperation) : Except String Json :=
  let opPath := processNegativeIndex jsonDoc op.path
  let opFrom := processNegativeIndex jsonDoc op.fromPath
  let opTo := processNegativeIndex jsonDoc op.toPath
  match op.mode with
  | "delete" => wrapOpError op.mode (sjsonDelete jsonDoc opPath)
  | "set" =>
    if op.keepOrigin && (gjsonGet jsonDoc opPath).isSome then .ok jsonDoc
    else wrapOpError op.mode (sjsonSet jsonDoc opPath op.value)
  | "move" => wrapOpError op.mode (moveValue jsonDoc opFrom opTo)
  | "prepend" => wrapOpError op.mode (modifyValue jsonDoc opPath op.value op.keepOrigin true)
  | "append" => wrapOpError op.mode (modifyValue jsonDoc opPath op.value op.keepOrigin false)
  | _ => .error ("unknown operation: " ++ op.mode)

/-- Embeds `applyOperations`: each operation is gated by its conditions (a
condition error aborts, a false gate skips the operation), executed on the
current document, and any execution error aborts the whole program. -/
def applyOperations (jsonDoc : Json) : List ParamOperation → Except String Json
  | [] => .ok jsonDoc
  | op :: rest =>
    match checkConditions jsonDoc op.conditions op.logic with
    | .error e => .error e
    | .ok false => applyOperations jsonDoc rest
    | .ok true =>
      match execOperation jsonDoc op with
      | .error e => .error e
      | .ok next => applyOperations next rest

/- ## Override-shape detection (`ApplyParamOverride`) -/

/-- A Go `string` type assertion on a decoded JSON value. -/
def asString : Option Json → Option String
  | some (.str s) => some s
  | _ => none

/-- A Go `bool` type assertion on a decoded JSON value. -/
def asBool : Option Json → Option Bool
  | some (.bool b) => some b
  | _ => none

/-- Parse one entry of a `conditions` list: a non-object entry is silently
skipped by the source (the caller uses `filterMap`); fields that are missing
or of the wrong type keep their zero value. -/
def parseCondition (j : Json) : Option ConditionOperation :=
  match j with
  | .obj fs =>
    some
      { path := (asString (lookupField fs "path")).getD ""
        mode := (asString (lookupField fs "mode")).getD ""
        value := (lookupField fs "value").getD .null
        invert := (asBool (lookupField fs "invert")).getD false
        passMissingKey := (asBool (lookupField fs "pass_missing_key")).getD false }
  | _ => none

/-- The `conditions` field of an operation: present-and-list yields the
parsed entries, anything else yields no conditions. -/
def parseConditions (j : Option Json) : List ConditionOperation :=
  match j with
  | some (.arr cs) => cs.filterMap parseCondition
  | _ => []

/-- Parse one entry of the `operations` list, following `tryParseOperations`:
the entry must be an object with a string `mode`; every other field keeps its
zero value when missing or ill-typed, and `logic` defaults to `OR`. -/
def parseOperation (j : Json) : Option ParamOperation :=
  match j with
  | .obj fs =>
    match asString (lookupField fs "mode") with
    | none => none
    | some mode =>
      some
        { path := (asString (lookupField fs "path")).getD ""
          mode := mode
          value := (lookupField fs "value").getD .null
          keepOrigin := (asBool (lookupField fs "keep_origin")).getD false
          fromPath := (asString (lookupField fs "from")).getD ""
          toPath := (asString (lookupField fs "to")).getD ""
          logic := (asString (lookupField fs "logic")).getD "OR"
          conditions := parseConditions (lookupField fs "conditions") }
  | _ => none

/-- Parse the whole `operations` list; any unparseable entry rejects the
structured shape altogether. -/
def parseOpsList : List Json → Option (List ParamOperation)
  | [] => some []
  | j :: rest =>
    match parseOperation j with
    | none => none
    | some op =>
      match parseOpsList rest with
      | none => none
      | some ops => some (op :: ops)

/-- Embeds `tryParseOperations`: the override must hold an `operations` key
whose value is a list, and every list entry must parse. -/
def tryParseOperations (paramOverride : List (String × Json)) : Option (List ParamOperation) :=
  match lookupField paramOverride "operations" with
  | some (.arr opsSlice) => parseOpsList opsSlice
  | _ => none

/-- Embeds `applyOperationsLegacy`: the body must decode as an object; every
override key is written over the top-level map.  (Go re-marshals the map with
sorted keys; the model keeps insertion order, an equivalent object.) -/
def applyOperationsLegacy (jsonDoc : Json) (paramOverride : List (String × Json)) :
    Except String Json :=
  match jsonDoc with
  | .obj reqFields =>
    .ok (.obj (paramOverride.foldl (fun acc kv => setField acc kv.1 kv.2) reqFields))
  | _ => .error "json: cannot unmarshal body into map"

/-- Embeds `ApplyParamOverride`: an empty override returns the body
unchanged; otherwise the structured shape is attempted and the legacy flat
merge is the fallback. -/
def ApplyParamOverride (jsonDoc : Json) (paramOverride : List (String × Json)) :
    Except String Json :=
  if paramOverride.isEmpty then .ok jsonDoc
  else
    match tryParseOperations paramOverride with
    | some operations => applyOperations jsonDoc operations
    | none => applyOperationsLegacy jsonDoc paramOverride

/- ## Sensitive-information masking (`common/str.go`) -/

/-- RE2's `\s` class: tab, newline, vertical tab, form feed, carriage return,
space. -/
def isGoSpace (c : Char) : Bool :=
  c = ' ' || c = '\t' || c = '\n' || c = '\r' || c.toNat = 11 || c.toNat = 12

/-- RE2's `\w` class (used for the `\b` word boundary). -/
def isWordChar (c : Char) : Bool :=
  c.isAlphanum || c = '_'

/-- Embeds `maskHostTail`: keep two parts for a likely country-code TLD
(two-letter last part after a part of at most three letters), otherwise only
the last part. -/
def maskHostTail (parts : List String) : List String :=
  if parts.length < 2 then parts
  else
    match parts.reverse with
    | lastPart :: secondLastPart :: _ =>
      if lastPart.length = 2 && secondLastPart.length ≤ 3 then [secondLastPart, lastPart]
      else [lastPart]
    | _ => parts

/-- Embeds `maskHostForURL`: collapse every subdomain into a single `***`
prefix before the preserved tail. -/
def maskHostForURL (host : String) : String :=
  let parts := (splitOnChar '.' host.data).map String.mk
  if parts.length < 2 then "***"
  else "***." ++ joinSep "." (maskHostTail parts)

/-- Embeds `maskHostForPlainDomain`: one `***` per masked part (at least
one), then the preserved tail. -/
def maskHostForPlainDomain (domain : String) : String :=
  let parts := (splitOnChar '.' domain.data).map String.mk
  if parts.length < 2 then domain
  else
    let tail := maskHostTail parts
    let numStars := max (parts.length - tail.length) 1
    joinSep "." (List.replicate numStars "***") ++ "." ++ joinSep "." tail

/-- The scheme alternation `(http|https)://` of the URL regexp, tried in the
source order. -/
def schemeAt (s : List Char) : Option (List Char × List Char) :=
  if ['h', 't', 't', 'p', ':', '/', '/'].isPrefixOf s then
    some (['h', 't', 't', 'p'], s.drop 7)
  else if ['h', 't', 't', 'p', 's', ':', '/', '/'].isPrefixOf s then
    some (['h', 't', 't', 'p', 's'], s.drop 8)
  else none

/-- A match of the URL regexp `(http|https)://[^\s/$.?#].[^\s]*` anchored at
the head of `s`: the scheme, one constrained character, one arbitrary
non-newline character, then a maximal run of non-whitespace.  Returns the
matched text and the remainder of the string. -/
def urlMatchAt (s : List Char) : Option (List Char × List Char) :=
  match schemeAt s with
  | none => none
  | some (scheme, afterScheme) =>
    match afterScheme with
    | c1 :: c2 :: rrest =>
      if isGoSpace c1 || c1 = '/' || c1 = '$' || c1 = '.' || c1 = '?' || c1 = '#' then none
      else if c2 = '\n' then none
      else
        let tail := rrest.takeWhile (fun c => !isGoSpace c)
        some (scheme ++ ':' :: '/' :: '/' :: c1 :: c2 :: tail, rrest.drop tail.length)
    | _ => none

/-- The parts of `url.Parse` that the mask reads: scheme, host, path, raw
query (the fragment is dropped by the rewriting).  Models the parse of the
well-formed URLs the claims exercise; the `u.Host` userinfo stripping keeps
everything after the last `@` of the authority. -/
def urlParseL (u : List Char) : Option (List Char × List Char × List Char × List Char) :=
  match schemeAt u with
  | none => none
  | some (scheme, afterScheme) =>
    let authority := afterScheme.takeWhile (fun c => c ≠ '/' && c ≠ '?' && c ≠ '#')
    let afterAuth := afterScheme.drop authority.length
    let host := if authority.contains '@' then
        ((authority.reverse.takeWhile (fun c => c ≠ '@')).reverse) else authority
    let path := afterAuth.takeWhile (fun c => c ≠ '?' && c ≠ '#')
    let afterPath := afterAuth.drop path.length
    let rawQuery := match afterPath with
      | '?' :: qs => qs.takeWhile (fun c => c ≠ '#')
      | _ => []
    some (scheme, host, path, rawQuery)

/-- `strings.Trim(path, "/")`. -/
def trimSlashes (s : List Char) : List Char :=
  ((s.dropWhile (fun c => c = '/')).reverse.dropWhile (fun c => c = '/')).reverse

/-- Distinct query keys in first-appearance order (`url.ParseQuery` builds a
map keyed this way; Go then iterates the map in unspecified order — the model
fixes appearance order, and the claims use at most one key). -/
def queryKeys (qs : List Char) : List String :=
  let segments := (splitOnChar '&' qs).map String.mk
  (segments.filter (fun seg => seg ≠ "")).foldl
    (fun acc seg =>
      let key := String.mk (seg.data.takeWhile (fun c => c ≠ '='))
      if acc.contains key then acc else acc ++ [key]) []

/-- The replacement `ReplaceAllStringFunc` computes for one URL match:
masked host, every non-empty path component replaced by `***`, every query
value replaced by `***` (an unparseable query collapses to `?***`). -/
def maskURLMatch (urlStr : List Char) : List Char :=
  match urlParseL urlStr with
  | none => urlStr
  | some (scheme, host, path, rawQuery) =>
    if host.isEmpty then urlStr
    else
      let result := scheme ++ ':' :: '/' :: '/' :: (maskHostForURL (String.mk host)).data
      let result :=
        if path ≠ [] ∧ path ≠ ['/'] then
          let pathParts := (splitOnChar '/' (trimSlashes path)).map String.mk
          let maskedPathParts := pathParts.map (fun p => if p ≠ "" then "***" else "")
          result ++ '/' :: (joinSep "/" maskedPathParts).data
        else if path = ['/'] then result ++ ['/']
        else result
      if rawQuery ≠ [] then
        if rawQuery.contains ';' then result ++ ('?' :: ['*', '*', '*'])
        else
          let keys := queryKeys rawQuery
          if keys ≠ [] then
            result ++ '?' :: (joinSep "&" (keys.map (fun k => k ++ "=***"))).data
          else result
      else result

/-- One pass of `urlPattern.ReplaceAllStringFunc`: scan left to right, rewrite
each match, continue after it (the fuel always suffices, every step consumes
at least one character). -/
def maskURLsGo : Nat → List Char → List Char
  | 0, s => s
  | _ + 1, [] => []
  | fuel + 1, c :: rest =>
    match urlMatchAt (c :: rest) with
    | some (matched, remaining) => maskURLMatch matched ++ maskURLsGo fuel remaining
    | none => c :: maskURLsGo fuel rest

/-- A well-formed domain label for the domain regexp: a maximal
alphanumeric-or-hyphen run that starts and ends alphanumeric, of length at
most 63. -/
def okLabel (run : List Char) : Bool :=
  match run with
  | [] => false
  | c :: _ =>
    c.isAlphanum &&
      (match run.getLast? with | some d => d.isAlphanum | none => false) &&
      run.length ≤ 63

/-- The final `[a-zA-Z]{2,}\b` of the domain regexp at the head of `s`: the
maximal alphabetic run, of length at least two, followed by a non-word
character or the end of the string.  (Shrinking the greedy run can never
restore the boundary, so the maximal run is the only candidate.) -/
def tldAt (s : List Char) : Option (List Char) :=
  let run := s.takeWhile Char.isAlpha
  if run.length ≥ 2 &&
      (match (s.drop run.length).head? with | some c => !isWordChar c | none => true) then
    some run
  else none

/-- A match of `(?:label\.)+[a-zA-Z]{2,}\b` anchored at the head of `s`,
preferring more `label.` groups first and backtracking to the TLD exactly as
the leftmost-first regexp engine does.  A label is forced to be the whole
maximal alphanumeric-or-hyphen run, since any shorter prefix is followed by a
run character rather than the required dot.  Structural recursion on a fuel
bound (every group consumes at least two characters, so the wrapper's fuel
always suffices). -/
def matchDomainCoreAux : Nat → List Char → Option (List Char)
  | 0, _ => none
  | fuel + 1, s =>
    let run := s.takeWhile (fun c => c.isAlphanum || c = '-')
    if okLabel run = true ∧ (s.drop run.length).head? = some '.' then
      match matchDomainCoreAux fuel (s.drop (run.length + 1)) with
      | some m => some (run ++ '.' :: m)
      | none =>
        match tldAt (s.drop (run.length + 1)) with
        | some t => some (run ++ '.' :: t)
        | none => none
    else none

/-- The domain-pattern match anchored at the head of `s`. -/
def matchDomainCore (s : List Char) : Option (List Char) :=
  matchDomainCoreAux (s.length + 1) s

/-- One pass of `domainPattern.ReplaceAllStringFunc`: the boolean tracks
whether the previous character of the original string was a word character
(so that the `\b` at the match start can be checked), and scanning resumes
after each match. -/
def maskDomainsGo : Nat → Bool → List Char → List Char
  | 0, _, s => s
  | _ + 1, _, [] => []
  | fuel + 1, prevWord, c :: rest =>
    match (if prevWord then none else matchDomainCore (c :: rest)) with
    | some m =>
      (maskHostForPlainDomain (String.mk m)).data ++
        maskDomainsGo fuel true ((c :: rest).drop m.length)
    | none => c :: maskDomainsGo fuel (isWordChar c) rest

/-- One `\d{1,3}` octet of the IP regexp: the maximal digit run, which must
have length between one and three (a longer run can never be saved by
backtracking, the character after a shortened octet stays a digit). -/
def octetAt (s : List Char) : Option (List Char) :=
  let run := s.takeWhile Char.isDigit
  if 1 ≤ run.length && run.length ≤ 3 then some run else none

/-- A match of `\b(?:\d{1,3}\.){3}\d{1,3}\b` anchored at the head of `s`
(the leading boundary is checked by the scanner): three dot-terminated
octets, a final octet, then a trailing boundary. -/
def ipMatchAt (s : List Char) : Option Nat :=
  match octetAt s with
  | none => none
  | some o1 =>
    match s.drop o1.length with
    | '.' :: s1 =>
      match octetAt s1 with
      | none => none
      | some o2 =>
        match s1.drop o2.length with
        | '.' :: s2 =>
          match octetAt s2 with
          | none => none
          | some o3 =>
            match s2.drop o3.length with
            | '.' :: s3 =>
              match octetAt s3 with
              | none => none
              | some o4 =>
                match (s3.drop o4.length).head? with
                | some c =>
                  if isWordChar c then none
                  else some (o1.length + o2.length + o3.length + o4.length + 3)
                | none => some (o1.length + o2.length + o3.length + o4.length + 3)
            | _ => none
        | _ => none
    | _ => none

/-- One pass of `ipPattern.ReplaceAllString(str, "***.***.***.***")`, with the
same boundary tracking as the domain pass. -/
def maskIPsGo : Nat → Bool → List Char → List Char
  | 0, _, s => s
  | _ + 1, _, [] => []
  | fuel + 1, prevWord, c :: rest =>
    match (if prevWord then none else ipMatchAt (c :: rest)) with
    | some n =>
      ("***.***.***.***".data) ++ maskIPsGo fuel true ((c :: rest).drop n)
    | none => c :: maskIPsGo fuel (isWordChar c) rest

/-- Embeds `MaskSensitiveInfo`: URLs first, then bare domain names, then
IPv4 addresses. -/
def MaskSensitiveInfo (str : String) : String :=
  let s1 := maskURLsGo (str.data.length + 1) str.data
  let s2 := maskDomainsGo (s1.length + 1) false s1
  let s3 := maskIPsGo (s2.length + 1) false s2
  String.mk s3

/- ## Theorems about the retry loop and the quota protocol (claims C1 to C5) -/

/-- C1: a refund of the pre-consumed quota is issued iff the pipeline exits
with a non-nil error and `FinalPreConsumedQuota` is non-zero; in particular a
request failing before pre-consumption succeeds never triggers a refund. -/
theorem Relay_refund_iff (env : PipelineEnv) :
    ((Relay env).refundIssued = true ↔
      (Relay env).finalError.isSome = true ∧ (Relay env).finalPreConsumedQuota ≠ 0)
    ∧ (failsBeforePreConsumeSuccess env = true → (Relay env).refundIssued = false) := by
  unfold Relay failsBeforePreConsumeSuccess
  cases hv : env.validateErr with
  | some e => simp
  | none =>
    cases hg : env.genRelayInfoErr with
    | some e => simp
    | none =>
      by_cases hs : (env.shouldCheckPromptSensitive && env.sensitiveDetected) = true
      · simp [hs]
      · rw [if_neg hs]
        cases hc : env.countTokenErr with
        | some e => simp [hs]
        | none =>
          cases hp : env.priceErr with
          | some e => simp [hs]
          | none =>
            cases hq : env.preConsume with
            | error e => simp [hs]
            | ok q =>
              simp [hs, Bool.and_eq_true, bne_iff_ne]

/-- Loop invariant for C5: from index `i` on, at most `retryTimes + 1 - i`
dispatches remain. -/
theorem relayLoop_count_le (ctx : RelayContext) (steps : Nat → LoopStep) (rt : Nat) :
    ∀ d i, i ≤ rt → rt - i ≤ d → (relayLoop ctx steps rt i).2 ≤ rt + 1 - i := by
  intro d
  induction d with
  | zero =>
    intro i hle hd
    rw [relayLoop]
    split
    · simp
    · split
      · simp; omega
      · split
        · omega
        · simp; omega
  | succ d ih =>
    intro i hle hd
    rw [relayLoop]
    split
    · simp
    · split
      · simp; omega
      · split
        next h =>
          have := ih (i + 1) (by omega) (by omega)
          simp only []
          omega
        next h => simp; omega

/-- C5: the retry loop runs its index from 0 while it stays at most
`RetryTimes`, so a request performs at most `RetryTimes + 1` dispatch
attempts, never more. -/
theorem relay_attempts_bounded (ctx : RelayContext) (steps : Nat → LoopStep) (rt : Nat) :
    (relayLoop ctx steps rt 0).2 ≤ rt + 1 := by
  have := relayLoop_count_le ctx steps rt rt 0 (Nat.zero_le _) (by omega)
  simpa using this

/-- C2 counterexample: an error carrying both the skip-retry and the
channel-error flag is retried (the channel-error test runs first), so the
skip-retry flag alone does not force `shouldRetry` to false. -/
theorem shouldRetry_skip_retry_cex :
    (NewAPIError.mk 500 true true).skipRetry = true ∧
    shouldRetry ⟨false⟩ (some (NewAPIError.mk 500 true true)) 3 ≠ false := by decide

/-- C2 (amended): for every error with the skip-retry flag set and the
channel-error flag clear, `shouldRetry` returns false for every remaining
budget. -/
theorem shouldRetry_skip_retry (ctx : RelayContext) (e : NewAPIError) (retryTimes : Int)
    (h1 : e.skipRetry = true) (h2 : e.channelError = false) :
    shouldRetry ctx (some e) retryTimes = false := by
  simp [shouldRetry, h1, h2]

/-- Witness for C2 at a concrete skip-retry error and budget 3. -/
theorem shouldRetry_skip_retry_witness :
    (NewAPIError.mk 500 true false).skipRetry = true ∧
    (NewAPIError.mk 500 true false).channelError = false ∧
    shouldRetry ⟨false⟩ (some (NewAPIError.mk 500 true false)) 3 = false :=
  ⟨rfl, rfl, shouldRetry_skip_retry ⟨false⟩ (NewAPIError.mk 500 true false) 3 rfl rfl⟩

/-- C3: for every non-nil error with the channel-error flag set,
`shouldRetry` returns true regardless of the budget (even negative), the
skip-retry flag, a pinned channel, or the HTTP status. -/
theorem shouldRetry_channel_error (ctx : RelayContext) (e : NewAPIError) (retryTimes : Int)
    (h : e.channelError = true) :
    shouldRetry ctx (some e) retryTimes = true := by
  simp [shouldRetry, h]

/-- Witness for C3 at a pinned context, budget -2, status 400, and the
skip-retry flag also set. -/
theorem shouldRetry_channel_error_witness :
    (NewAPIError.mk 400 true true).channelError = true ∧
    shouldRetry ⟨true⟩ (some (NewAPIError.mk 400 true true)) (-2) = true :=
  ⟨rfl, shouldRetry_channel_error ⟨true⟩ (NewAPIError.mk 400 true true) (-2) rfl⟩

/-- C4: for every error without the channel-error flag whose status is 400,
408, 504, 524 or any 2xx, `shouldRetry` returns false for every budget. -/
theorem shouldRetry_terminal_statuses (ctx : RelayContext) (e : NewAPIError) (retryTimes : Int)
    (hch : e.channelError = false)
    (hs : e.statusCode = 400 ∨ e.statusCode = 408 ∨ e.statusCode = 504 ∨ e.statusCode = 524 ∨
          e.statusCode / 100 = 2) :
    shouldRetry ctx (some e) retryTimes = false := by
  simp only [shouldRetry, hch, Bool.false_eq_true, if_false]
  split_ifs <;> first | rfl | omega

/-- Witness for C4 at status 504 with budget 3. -/
theorem shouldRetry_terminal_statuses_witness :
    (NewAPIError.mk 504 false false).channelError = false ∧
    shouldRetry ⟨false⟩ (some (NewAPIError.mk 504 false false)) 3 = false :=
  ⟨rfl, shouldRetry_terminal_statuses ⟨false⟩ (NewAPIError.mk 504 false false) 3 rfl
    (Or.inr (Or.inr (Or.inl rfl)))⟩

/-- Witness for C1: a concrete run failing at validation issues no refund. -/
theorem Relay_refund_iff_witness :
    (failsBeforePreConsumeSuccess
      ⟨⟨false⟩, some (NewAPIError.mk 400 false false), none, false, false,
        NewAPIError.mk 400 false false, none, none, Except.ok 7,
        fun _ => ⟨none, none⟩, 3⟩) = true ∧
    (Relay
      ⟨⟨false⟩, some (NewAPIError.mk 400 false false), none, false, false,
        NewAPIError.mk 400 false false, none, none, Except.ok 7,
        fun _ => ⟨none, none⟩, 3⟩).refundIssued = false := by
  refine ⟨by decide, ?_⟩
  exact (Relay_refund_iff _).2 (by decide)

/- ## Theorems about the rewriter (claims C6 to C9) -/

/-- C6: an operation whose condition gate evaluates to false is skipped and
the document handed to the rest of the program is unchanged, while an
operation whose execution errors aborts the whole program with that error
(the Go caller receives an empty document to discard). -/
theorem applyOperations_gate_and_abort (jsonDoc : Json) (op : ParamOperation)
    (rest : List ParamOperation) :
    (checkConditions jsonDoc op.conditions op.logic = .ok false →
      applyOperations jsonDoc (op :: rest) = applyOperations jsonDoc rest) ∧
    (∀ e, checkConditions jsonDoc op.conditions op.logic = .ok true →
      execOperation jsonDoc op = .error e →
      applyOperations jsonDoc (op :: rest) = .error e) := by
  constructor
  · intro h
    simp [applyOperations, h]
  · intro e h1 h2
    simp [applyOperations, h1, h2]

/-- Witness for C6: a gated set is skipped; a move from a missing source
aborts. -/
theorem applyOperations_gate_and_abort_witness :
    (applyOperations (.obj [("a", .num 1)])
      [{ path := "t", mode := "set", value := .num 5, keepOrigin := false,
         fromPath := "", toPath := "",
         conditions := [{ path := "a", mode := "full", value := .num 2,
                          invert := false, passMissingKey := false }],
         logic := "AND" }] = .ok (.obj [("a", .num 1)])) ∧
    (applyOperations (.obj [("a", .num 1)])
      [{ path := "", mode := "move", value := .null, keepOrigin := false,
         fromPath := "b", toPath := "c", conditions := [], logic := "OR" }] =
      .error "operation move failed: source path does not exist: b") := by
  constructor
  · exact ((applyOperations_gate_and_abort (.obj [("a", .num 1)])
      { path := "t", mode := "set", value := .num 5, keepOrigin := false,
        fromPath := "", toPath := "",
        conditions := [{ path := "a", mode := "full", value := .num 2,
                         invert := false, passMissingKey := false }],
        logic := "AND" } []).1 rfl).trans rfl
  · exact (applyOperations_gate_and_abort (.obj [("a", .num 1)])
      { path := "", mode := "move", value := .null, keepOrigin := false,
        fromPath := "b", toPath := "c", conditions := [], logic := "OR" } []).2 _ rfl rfl

/-- C7 counterexample: a `gt` condition on an existing non-numeric value does
not evaluate to false and skip the operation — the whole program aborts with a
comparison error. -/
theorem numeric_condition_nonnumeric_cex :
    gjsonGet (.obj [("a", .str "x")]) "a" = some (.str "x") ∧
    applyOperations (.obj [("a", .str "x")])
      [{ path := "t", mode := "set", value := .num 5, keepOrigin := false,
         fromPath := "", toPath := "",
         conditions := [{ path := "a", mode := "gt", value := .num 1,
                          invert := false, passMissingKey := false }],
         logic := "OR" }] =
      .error ("comparison failed for path a: numeric comparison requires both values to be numbers, got String and Number") :=
  ⟨rfl, rfl⟩

/-- C7 (amended): for every numeric-mode condition on an existing value with
a non-numeric side, condition evaluation returns an error and
`applyOperations` aborts the whole program with it, instead of skipping the
gated operation. -/
theorem numeric_condition_nonnumeric_aborts (jsonDoc : Json) (cond : ConditionOperation)
    (op : ParamOperation) (rest : List ParamOperation) (v : Json)
    (hconds : op.conditions = [cond])
    (hmode : goToLower cond.mode = "gt" ∨ goToLower cond.mode = "gte" ∨
             goToLower cond.mode = "lt" ∨ goToLower cond.mode = "lte")
    (hv : gjsonGet jsonDoc (processNegativeIndex jsonDoc cond.path) = some v)
    (hnum : jsonType v ≠ .gNumber ∨ jsonType cond.value ≠ .gNumber) :
    applyOperations jsonDoc (op :: rest) =
      .error ("comparison failed for path " ++ cond.path ++ ": " ++
        ("numeric comparison requires both values to be numbers, got " ++
          (jsonType v).name ++ " and " ++ (jsonType cond.value).name)) := by
  have hcn : ∀ (a b : Json), jsonType a ≠ .gNumber ∨ jsonType b ≠ .gNumber → ∀ o : String,
      compareNumeric a b o =
        .error ("numeric comparison requires both values to be numbers, got " ++
          (jsonType a).name ++ " and " ++ (jsonType b).name) := by
    intro a b hab o
    cases a <;> cases b <;>
      first
        | rfl
        | (exfalso; revert hab; simp [jsonType])
  have hcmp : compareGjsonValues v cond.value (goToLower cond.mode) =
      .error ("numeric comparison requires both values to be numbers, got " ++
        (jsonType v).name ++ " and " ++ (jsonType cond.value).name) := by
    rcases hmode with h | h | h | h <;> rw [h] <;>
      simp [compareGjsonValues, hcn v cond.value hnum]
  have hsc : checkSingleCondition jsonDoc cond =
      .error ("comparison failed for path " ++ cond.path ++ ": " ++
        ("numeric comparison requires both values to be numbers, got " ++
          (jsonType v).name ++ " and " ++ (jsonType cond.value).name)) := by
    simp [checkSingleCondition, hv, hcmp]
  have hcc : checkConditions jsonDoc op.conditions op.logic =
      .error ("comparison failed for path " ++ cond.path ++ ": " ++
        ("numeric comparison requires both values to be numbers, got " ++
          (jsonType v).name ++ " and " ++ (jsonType cond.value).name)) := by
    simp [checkConditions, hconds, evalConditionList, hsc]
  simp [applyOperations, hcc]

/-- Witness for C7 at a string-valued path compared with `gt` against a
number. -/
theorem numeric_condition_nonnumeric_aborts_witness :
    applyOperations (.obj [("a", .str "x")])
      [{ path := "t", mode := "set", value := .num 5, keepOrigin := false,
         fromPath := "", toPath := "",
         conditions := [{ path := "a", mode := "gt", value := .num 1,
                          invert := false, passMissingKey := false }],
         logic := "OR" }] =
      .error ("comparison failed for path " ++ "a" ++ ": " ++
        ("numeric comparison requires both values to be numbers, got " ++
          "String" ++ " and " ++ "Number")) := by
  exact numeric_condition_nonnumeric_aborts (.obj [("a", .str "x")])
    { path := "a", mode := "gt", value := .num 1, invert := false, passMissingKey := false }
    _ [] (.str "x") rfl (Or.inl rfl) rfl (Or.inl (by decide))

/-- Helper for C9: a successful string assertion pins the underlying value. -/
theorem asString_eq_some (x : Option Json) (m : String) :
    asString x = some m → x = some (.str m) := by
  cases x with
  | none => simp [asString]
  | some v =>
    cases v <;> simp [asString]

/-- Helper for C9: a parsed operations list consists of objects carrying a
string `mode`. -/
theorem parseOpsList_sound : ∀ (l : List Json) (ops : List ParamOperation),
    parseOpsList l = some ops →
    ∀ e ∈ l, ∃ fs m, e = .obj fs ∧ lookupField fs "mode" = some (.str m) := by
  intro l
  induction l with
  | nil => intro ops _ e he; exact absurd he (List.not_mem_nil e)
  | cons j rest ih =>
    intro ops hops e he
    obtain ⟨op, hop⟩ : ∃ op, parseOperation j = some op := by
      cases hpj : parseOperation j with
      | none => simp [parseOpsList, hpj] at hops
      | some op => exact ⟨op, rfl⟩
    obtain ⟨ops2, hops2⟩ : ∃ ops2, parseOpsList rest = some ops2 := by
      cases hpr : parseOpsList rest with
      | none => simp [parseOpsList, hop, hpr] at hops
      | some ops2 => exact ⟨ops2, rfl⟩
    rcases List.mem_cons.mp he with he | he
    · subst he
      cases e with
      | obj fs =>
        cases hm : asString (lookupField fs "mode") with
        | none => simp [parseOperation, hm] at hop
        | some m => exact ⟨fs, m, rfl, asString_eq_some _ _ hm⟩
      | null => simp [parseOperation] at hop
      | bool b => simp [parseOperation] at hop
      | num q => simp [parseOperation] at hop
      | str t => simp [parseOperation] at hop
      | arr xs => simp [parseOperation] at hop
    · exact ih ops2 hops2 e he

/-- Helper for C9: a list of objects each carrying a string `mode` parses. -/
theorem parseOpsList_complete : ∀ (l : List Json),
    (∀ e ∈ l, ∃ fs m, e = .obj fs ∧ lookupField fs "mode" = some (.str m)) →
    ∃ ops, parseOpsList l = some ops := by
  intro l
  induction l with
  | nil => intro _; exact ⟨[], rfl⟩
  | cons j rest ih =>
    intro h
    obtain ⟨fs, m, hobj, hmode⟩ := h j (List.mem_cons_self j rest)
    have hop : parseOperation j = some
        { path := (asString (lookupField fs "path")).getD ""
          mode := m
          value := (lookupField fs "value").getD .null
          keepOrigin := (asBool (lookupField fs "keep_origin")).getD false
          fromPath := (asString (lookupField fs "from")).getD ""
          toPath := (asString (lookupField fs "to")).getD ""
          logic := (asString (lookupField fs "logic")).getD "OR"
          conditions := parseConditions (lookupField fs "conditions") } := by
      rw [hobj, parseOperation, hmode]
      rfl
    obtain ⟨ops2, hops2⟩ := ih (fun e he => h e (List.mem_cons_of_mem j he))
    exact ⟨_, by rw [parseOpsList, hop, hops2]⟩

/-- C9 (amended): an empty override returns the body unchanged; the override
is applied as an ordered structured program exactly when `tryParseOperations`
succeeds — which requires an `operations` key with a list value all of whose
entries are objects carrying a string `mode` — and otherwise (even when an
`operations` list is present but unparseable) it is applied as the legacy flat
top-level merge. -/
theorem ApplyParamOverride_dispatch :
    (∀ jsonDoc : Json, ApplyParamOverride jsonDoc [] = .ok jsonDoc) ∧
    (∀ (jsonDoc : Json) (ov : List (String × Json)) (ops : List ParamOperation),
      ov ≠ [] → tryParseOperations ov = some ops →
      ApplyParamOverride jsonDoc ov = applyOperations jsonDoc ops) ∧
    (∀ (jsonDoc : Json) (ov : List (String × Json)),
      ov ≠ [] → tryParseOperations ov = none →
      ApplyParamOverride jsonDoc ov = applyOperationsLegacy jsonDoc ov) ∧
    (∀ (ov : List (String × Json)) (ops : List ParamOperation),
      tryParseOperations ov = some ops →
      ∃ l, lookupField ov "operations" = some (.arr l) ∧
        ∀ e ∈ l, ∃ fs m, e = .obj fs ∧ lookupField fs "mode" = some (.str m)) ∧
    (∀ (ov : List (String × Json)) (l : List Json),
      lookupField ov "operations" = some (.arr l) →
      (∀ e ∈ l, ∃ fs m, e = .obj fs ∧ lookupField fs "mode" = some (.str m)) →
      ∃ ops, tryParseOperations ov = some ops) := by
  refine ⟨fun jsonDoc => rfl, ?_, ?_, ?_, ?_⟩
  · intro jsonDoc ov ops hne hparse
    cases ov with
    | nil => exact absurd rfl hne
    | cons kv rest => simp [ApplyParamOverride, hparse]
  · intro jsonDoc ov hne hparse
    cases ov with
    | nil => exact absurd rfl hne
    | cons kv rest => simp [ApplyParamOverride, hparse]
  · intro ov ops hparse
    cases hl : lookupField ov "operations" with
    | none => simp [tryParseOperations, hl] at hparse
    | some v =>
      cases v with
      | arr l =>
        refine ⟨l, rfl, ?_⟩
        rw [tryParseOperations, hl] at hparse
        exact parseOpsList_sound l ops hparse
      | null => simp [tryParseOperations, hl] at hparse
      | bool b => simp [tryParseOperations, hl] at hparse
      | num q => simp [tryParseOperations, hl] at hparse
      | str t => simp [tryParseOperations, hl] at hparse
      | obj fs => simp [tryParseOperations, hl] at hparse
  · intro ov l hl hall
    obtain ⟨ops, hops⟩ := parseOpsList_complete l hall
    refine ⟨ops, ?_⟩
    rw [tryParseOperations, hl]
    exact hops

/-- Witness for C9: the empty, the structured and the legacy dispatch at
concrete overrides. -/
theorem ApplyParamOverride_dispatch_witness :
    (ApplyParamOverride (.obj [("a", .num 1)]) [] = .ok (.obj [("a", .num 1)])) ∧
    (ApplyParamOverride (.obj [("a", .num 1)])
        [("operations", .arr [.obj [("mode", .str "delete"), ("path", .str "a")]])] =
      applyOperations (.obj [("a", .num 1)])
        [{ path := "a", mode := "delete", value := .null, keepOrigin := false,
           fromPath := "", toPath := "", conditions := [], logic := "OR" }]) ∧
    (ApplyParamOverride (.obj [("a", .num 1)]) [("b", .num 2)] =
      applyOperationsLegacy (.obj [("a", .num 1)]) [("b", .num 2)]) ∧
    (∃ ops, tryParseOperations [("operations", .arr [.obj [("mode", .str "set")]])] =
      some ops) := by
  refine ⟨ApplyParamOverride_dispatch.1 _, ?_, ?_, ?_⟩
  · exact ApplyParamOverride_dispatch.2.1 (.obj [("a", .num 1)])
      [("operations", .arr [.obj [("mode", .str "delete"), ("path", .str "a")]])]
      [{ path := "a", mode := "delete", value := .null, keepOrigin := false,
         fromPath := "", toPath := "", conditions := [], logic := "OR" }]
      (by simp) rfl
  · exact ApplyParamOverride_dispatch.2.2.1 (.obj [("a", .num 1)]) [("b", .num 2)]
      (by simp) rfl
  · refine ApplyParamOverride_dispatch.2.2.2.2
      [("operations", .arr [.obj [("mode", .str "set")]])]
      [.obj [("mode", .str "set")]] rfl ?_
    intro e he
    have he2 : e = .obj [("mode", .str "set")] := by simpa using he
    exact ⟨[("mode", .str "set")], "set", he2, rfl⟩

/-- C9 counterexample: an override whose `operations` key holds a list whose
single entry lacks `mode` is not applied as a structured program — it falls
back to the legacy merge, writing the `operations` key into the body. -/
theorem ApplyParamOverride_listvalue_cex :
    lookupField [("operations", Json.arr [Json.obj [("path", Json.str "temperature")]])]
      "operations" = some (.arr [.obj [("path", .str "temperature")]]) ∧
    tryParseOperations [("operations", .arr [.obj [("path", .str "temperature")]])] = none ∧
    ApplyParamOverride (.obj [("a", .num 1)])
        [("operations", .arr [.obj [("path", .str "temperature")]])] =
      .ok (.obj [("a", .num 1), ("operations", .arr [.obj [("path", .str "temperature")]])]) :=
  ⟨rfl, rfl, rfl⟩

/-- C10 counterexample: the mask does not redact the local part of an email
address — `user@example.com` keeps `user` verbatim and only the domain is
masked. -/
theorem MaskSensitiveInfo_email_cex :
    MaskSensitiveInfo "user@example.com" = "user@***.com" ∧
    containsSub (MaskSensitiveInfo "user@example.com").data "user".data = true :=
  ⟨rfl, by decide⟩


/- ## Theorems about negative-index path resolution (claim C8) -/

theorem digitChar_isDigit (d : Nat) (hd : d < 10) : (Char.ofNat (48 + d)).isDigit = true := by
  interval_cases d <;> decide

theorem digitChar_toNat (d : Nat) (hd : d < 10) : (Char.ofNat (48 + d)).toNat = 48 + d := by
  interval_cases d <;> decide

theorem natDigitsAux_digits :
    ∀ (fuel n : Nat), n < fuel → ∀ c ∈ natDigitsAux fuel n, c.isDigit = true := by
  intro fuel
  induction fuel with
  | zero => intro n hn; omega
  | succ f ih =>
    intro n hn c hc
    by_cases h10 : n < 10
    · rw [natDigitsAux, if_pos h10] at hc
      rw [List.mem_singleton] at hc
      subst hc
      exact digitChar_isDigit n h10
    · rw [natDigitsAux, if_neg h10] at hc
      rcases List.mem_append.mp hc with hc | hc
      · exact ih (n / 10) (by omega) c hc
      · rw [List.mem_singleton] at hc
        subst hc
        exact digitChar_isDigit (n % 10) (by omega)

theorem natDigits_digits (n : Nat) : ∀ c ∈ natDigits n, c.isDigit = true :=
  natDigitsAux_digits (n + 1) n (by omega)

theorem natDigitsAux_ne_nil (fuel n : Nat) (h : n < fuel) : natDigitsAux fuel n ≠ [] := by
  cases fuel with
  | zero => omega
  | succ f =>
    rw [natDigitsAux]
    by_cases h10 : n < 10
    · rw [if_pos h10]; simp
    · rw [if_neg h10]; simp

theorem natDigits_ne_nil (n : Nat) : natDigits n ≠ [] :=
  natDigitsAux_ne_nil (n + 1) n (by omega)

theorem digitsToNat_concat (a : List Char) (c : Char) :
    digitsToNat (a ++ [c]) = digitsToNat a * 10 + (c.toNat - 48) := by
  simp [digitsToNat, List.foldl_append]

theorem digitsToNat_natDigitsAux :
    ∀ (fuel n : Nat), n < fuel → digitsToNat (natDigitsAux fuel n) = n := by
  intro fuel
  induction fuel with
  | zero => intro n hn; omega
  | succ f ih =>
    intro n hn
    by_cases h10 : n < 10
    · rw [natDigitsAux, if_pos h10]
      show digitsToNat ([] ++ [Char.ofNat (48 + n)]) = n
      rw [digitsToNat_concat, digitChar_toNat n h10]
      simp [digitsToNat]
    · rw [natDigitsAux, if_neg h10]
      rw [digitsToNat_concat, ih (n / 10) (by omega), digitChar_toNat (n % 10) (by omega)]
      omega

theorem digitsToNat_natDigits (n : Nat) : digitsToNat (natDigits n) = n :=
  digitsToNat_natDigitsAux (n + 1) n (by omega)

theorem takeWhile_append_all (p : Char → Bool) :
    ∀ (a b : List Char), (∀ c ∈ a, p c = true) → (∀ c, b.head? = some c → p c = false) →
      (a ++ b).takeWhile p = a := by
  intro a
  induction a with
  | nil =>
    intro b _ hb
    cases b with
    | nil => rfl
    | cons c rest =>
      simp only [List.nil_append, List.takeWhile]
      rw [hb c rfl]
  | cons x xs ih =>
    intro b ha hb
    simp only [List.cons_append, List.takeWhile]
    rw [ha x (List.mem_cons_self x xs)]
    simp [ih b (fun c hc => ha c (List.mem_cons_of_mem x hc)) hb]

theorem scanNegMatchesAux_nil_input (fuel : Nat) : scanNegMatchesAux fuel [] = [] := by
  cases fuel <;> rfl

theorem containsSub_cons (c : Char) (s pat : List Char) :
    containsSub (c :: s) pat = (pat.isPrefixOf (c :: s) || containsSub s pat) := by
  rw [containsSub]

theorem scanNegMatchesAux_none :
    ∀ (fuel : Nat) (s : List Char), containsSub s ['.', '-'] = false →
      scanNegMatchesAux fuel s = [] := by
  intro fuel
  induction fuel with
  | zero => intro s _; rfl
  | succ f ih =>
    intro s hs
    cases s with
    | nil => rfl
    | cons c rest =>
      rw [containsSub_cons] at hs
      rcases Bool.or_eq_false_iff.mp hs with ⟨hpre, hrest⟩
      cases rest with
      | nil =>
        rw [scanNegMatchesAux]
        exact scanNegMatchesAux_nil_input f
      | cons c2 rest2 =>
        have hcond : ¬(c = '.' ∧ c2 = '-') := by
          rintro ⟨hc, hc2⟩
          subst hc
          subst hc2
          simp [List.isPrefixOf] at hpre
        rw [scanNegMatchesAux, if_neg hcond]
        exact ih (c2 :: rest2) hrest

theorem scanNegMatchesAux_junction (ds rest : List Char)
    (hds : ds ≠ []) (hdig : ∀ c ∈ ds, c.isDigit = true)
    (hrh : ∀ c, rest.head? = some c → c.isDigit = false)
    (hrest : containsSub rest ['.', '-'] = false) :
    ∀ (base : List Char) (fuel : Nat),
      (base ++ '.' :: '-' :: (ds ++ rest)).length < fuel →
      containsSub base ['.', '-'] = false →
      scanNegMatchesAux fuel (base ++ '.' :: '-' :: (ds ++ rest)) = [ds] := by
  intro base
  induction base with
  | nil =>
    intro fuel hfuel hb
    cases fuel with
    | zero => simp at hfuel
    | succ f =>
      simp only [List.nil_append]
      rw [scanNegMatchesAux, if_pos ⟨rfl, rfl⟩]
      have htw : (ds ++ rest).takeWhile Char.isDigit = ds :=
        takeWhile_append_all Char.isDigit ds rest hdig hrh
      simp only [htw]
      have hemp : ds.isEmpty = false := by
        cases ds with
        | nil => exact absurd rfl hds
        | cons a b => rfl
      rw [hemp]
      simp only [Bool.false_eq_true, if_false, List.drop_left]
      rw [scanNegMatchesAux_none f rest hrest]
  | cons c base2 ih =>
    intro fuel hfuel hb
    rw [containsSub_cons] at hb
    rcases Bool.or_eq_false_iff.mp hb with ⟨hpre, hb2⟩
    cases fuel with
    | zero => simp at hfuel
    | succ f =>
      simp only [List.cons_append]
      cases hsplit : base2 ++ '.' :: '-' :: (ds ++ rest) with
      | nil => exact absurd hsplit (by simp)
      | cons r1 rrest =>
        rw [scanNegMatchesAux]
        have hcond : ¬(c = '.' ∧ r1 = '-') := by
          rintro ⟨hc, hr⟩
          subst hc
          subst hr
          cases base2 with
          | nil => simp at hsplit
          | cons b bt =>
            rw [List.cons_append] at hsplit
            have hbr : b = '-' := (List.cons.injEq _ _ _ _ ▸ hsplit).1
            subst hbr
            simp [List.isPrefixOf] at hpre
        rw [if_neg hcond, ← hsplit]
        exact ih f (by simp at hfuel ⊢; omega) hb2

theorem scanNegMatches_junction (ds rest base : List Char)
    (hds : ds ≠ []) (hdig : ∀ c ∈ ds, c.isDigit = true)
    (hrh : ∀ c, rest.head? = some c → c.isDigit = false)
    (hrest : containsSub rest ['.', '-'] = false)
    (hb : containsSub base ['.', '-'] = false) :
    scanNegMatches (base ++ '.' :: '-' :: (ds ++ rest)) = [ds] :=
  scanNegMatchesAux_junction ds rest hds hdig hrh hrest base _ (by omega) hb

theorem isPrefixOf_self_append : ∀ (l t : List Char), l.isPrefixOf (l ++ t) = true := by
  intro l t
  induction l with
  | nil => cases t <;> rfl
  | cons c cs ih => simp [List.isPrefixOf, ih]

theorem isPrefixOf_append_dot : ∀ (pat u w : List Char), '.' ∉ pat →
    pat.isPrefixOf (u ++ '.' :: w) = true → pat.isPrefixOf u = true := by
  intro pat
  induction pat with
  | nil => intro u w _ _; cases u <;> rfl
  | cons p pr ih =>
    intro u w hdot hpre
    cases u with
    | nil =>
      simp only [List.nil_append, List.isPrefixOf, Bool.and_eq_true, beq_iff_eq] at hpre
      exact absurd (hpre.1 ▸ List.mem_cons_self p pr) hdot
    | cons a u2 =>
      simp only [List.cons_append, List.isPrefixOf, Bool.and_eq_true, beq_iff_eq] at hpre ⊢
      exact ⟨hpre.1, ih u2 w (fun hm => hdot (List.mem_cons_of_mem p hm)) hpre.2⟩

theorem splitFirst_junction (pat tail2 : List Char) (hne : pat ≠ []) (hdot : '.' ∉ pat) :
    ∀ base, containsSub base pat = false →
      splitFirst (base ++ '.' :: (pat ++ tail2)) pat = base ++ ['.'] := by
  intro base
  induction base with
  | nil =>
    intro _
    have hnp : pat.isPrefixOf ('.' :: (pat ++ tail2)) = false := by
      cases pat with
      | nil => exact absurd rfl hne
      | cons p pr =>
        have hp : p ≠ '.' := fun h => hdot (h ▸ List.mem_cons_self p pr)
        simp [List.isPrefixOf, hp]
    rw [List.nil_append, splitFirst.eq_def, if_neg (by rw [hnp]; exact Bool.false_ne_true)]
    show '.' :: splitFirst (pat ++ tail2) pat = [] ++ ['.']
    rw [splitFirst.eq_def, if_pos (isPrefixOf_self_append pat tail2)]
    rfl
  | cons c base2 ih =>
    intro hb
    rw [containsSub_cons] at hb
    rcases Bool.or_eq_false_iff.mp hb with ⟨hpre, hb2⟩
    have hnp : pat.isPrefixOf (c :: (base2 ++ '.' :: (pat ++ tail2))) = false := by
      cases hx : pat.isPrefixOf (c :: (base2 ++ '.' :: (pat ++ tail2))) with
      | false => rfl
      | true =>
        have hx2 : pat.isPrefixOf ((c :: base2) ++ '.' :: (pat ++ tail2)) = true := hx
        have hres := isPrefixOf_append_dot pat (c :: base2) (pat ++ tail2) hdot hx2
        rw [hres] at hpre
        simp at hpre
    rw [List.cons_append, splitFirst.eq_def, if_neg (by rw [hnp]; exact Bool.false_ne_true)]
    show c :: splitFirst (base2 ++ '.' :: (pat ++ tail2)) pat = c :: base2 ++ ['.']
    rw [ih hb2]
    simp

theorem replaceFirst_junction (ds tail2 rep : List Char) :
    ∀ base, containsSub base ['.', '-'] = false →
      replaceFirst (base ++ '.' :: '-' :: (ds ++ tail2)) ('.' :: '-' :: ds) rep =
        base ++ (rep ++ tail2) := by
  intro base
  induction base with
  | nil =>
    intro _
    have hp : ('.' :: '-' :: ds).isPrefixOf ('.' :: '-' :: (ds ++ tail2)) = true := by
      simp [List.isPrefixOf, isPrefixOf_self_append]
    rw [List.nil_append, replaceFirst.eq_def, if_pos hp]
    simp only [List.length_cons, List.nil_append]
    rw [List.drop, List.drop, List.drop_left]
  | cons c base2 ih =>
    intro hb
    rw [containsSub_cons] at hb
    rcases Bool.or_eq_false_iff.mp hb with ⟨hpre, hb2⟩
    have hnp : ('.' :: '-' :: ds).isPrefixOf (c :: (base2 ++ '.' :: '-' :: (ds ++ tail2))) = false := by
      cases hx : ('.' :: '-' :: ds).isPrefixOf (c :: (base2 ++ '.' :: '-' :: (ds ++ tail2))) with
      | false => rfl
      | true =>
        simp only [List.isPrefixOf, Bool.and_eq_true, beq_iff_eq] at hx
        obtain ⟨hc, hx2⟩ := hx
        cases base2 with
        | nil =>
          simp only [List.nil_append, List.isPrefixOf, Bool.and_eq_true, beq_iff_eq] at hx2
          exact absurd hx2.1 (by decide)
        | cons b bt =>
          simp only [List.cons_append, List.isPrefixOf, Bool.and_eq_true, beq_iff_eq] at hx2
          subst hc
          have hbb : b = '-' := hx2.1.symm
          subst hbb
          simp [List.isPrefixOf] at hpre
    rw [List.cons_append, replaceFirst.eq_def, if_neg (by rw [hnp]; exact Bool.false_ne_true)]
    show c :: replaceFirst (base2 ++ '.' :: '-' :: (ds ++ tail2)) ('.' :: '-' :: ds) rep =
      c :: base2 ++ (rep ++ tail2)
    rw [ih hb2]
    simp

/-- C8 (amended): for a path `base.-k⟨rest⟩` holding a single negative index
whose text `-k` does not occur earlier in the path (and whose prefix and
suffix contain no other `.-`), if `base` addresses an array of length `len`
then `1 ≤ k ≤ len` rewrites the index to `len - k`, and `k > len` leaves the
path unchanged. -/
theorem processNegativeIndex_resolves (jsonDoc : Json) (base rest : List Char) (k : Nat)
    (xs : List Json)
    (hk : 1 ≤ k)
    (hbase : containsSub base ['.', '-'] = false)
    (hbase2 : containsSub base ('-' :: natDigits k) = false)
    (hrest : containsSub rest ['.', '-'] = false)
    (hrestHead : ∀ c, rest.head? = some c → c.isDigit = false)
    (harr : gjsonGet jsonDoc (String.mk base) = some (.arr xs)) :
    processNegativeIndexL jsonDoc (base ++ '.' :: '-' :: (natDigits k ++ rest)) =
      if k ≤ xs.length then base ++ '.' :: (natDigits (xs.length - k) ++ rest)
      else base ++ '.' :: '-' :: (natDigits k ++ rest) := by
  have hscan : scanNegMatches (base ++ '.' :: '-' :: (natDigits k ++ rest)) = [natDigits k] :=
    scanNegMatches_junction (natDigits k) rest base (natDigits_ne_nil k) (natDigits_digits k)
      hrestHead hrest hbase
  have hdot : '.' ∉ '-' :: natDigits k := by
    intro hm
    rcases List.mem_cons.mp hm with hm | hm
    · exact absurd hm (by decide)
    · have hd := natDigits_digits k '.' hm
      exact absurd hd (by decide)
  have hsp : splitFirst (base ++ '.' :: '-' :: (natDigits k ++ rest)) ('-' :: natDigits k) =
      base ++ ['.'] := by
    have h := splitFirst_junction ('-' :: natDigits k) rest (by simp) hdot base hbase2
    simpa using h
  unfold processNegativeIndexL
  rw [hscan]
  simp only [List.foldl_cons, List.foldl_nil]
  rw [hsp, List.getLast?_concat, if_pos rfl, List.dropLast_concat, harr,
    digitsToNat_natDigits]
  show (if 0 ≤ (xs.length : Int) + -(k : Int) ∧
          (xs.length : Int) + -(k : Int) < (xs.length : Int) then
      replaceFirst (base ++ '.' :: '-' :: (natDigits k ++ rest)) ('.' :: '-' :: natDigits k)
        ('.' :: natDigits ((xs.length : Int) + -(k : Int)).toNat)
    else base ++ '.' :: '-' :: (natDigits k ++ rest)) = _
  by_cases hkl : k ≤ xs.length
  · have hcond : (0 : Int) ≤ (xs.length : Int) + -(k : Int) ∧
        (xs.length : Int) + -(k : Int) < (xs.length : Int) := by
      constructor <;> omega
    rw [if_pos hcond, if_pos hkl]
    have htn : ((xs.length : Int) + -(k : Int)).toNat = xs.length - k := by omega
    rw [htn]
    have h := replaceFirst_junction (natDigits k) rest ('.' :: natDigits (xs.length - k))
      base hbase
    simpa using h
  · have hcond : ¬((0 : Int) ≤ (xs.length : Int) + -(k : Int) ∧
        (xs.length : Int) + -(k : Int) < (xs.length : Int)) := by omega
    rw [if_neg hcond, if_neg hkl]

/-- C8 counterexample: in the path `foo-2.arr.-2` the text `-2` also occurs
inside the key `foo-2`, so the array path is miscomputed, and although the
addressed array has length 3 and k = 2 is in range the index is not
rewritten. -/
theorem processNegativeIndex_hyphen_cex :
    gjsonGet (.obj [("foo-2", .obj [("arr", .arr [.num 1, .num 2, .num 3])])]) "foo-2.arr" =
      some (.arr [.num 1, .num 2, .num 3]) ∧
    processNegativeIndexL (.obj [("foo-2", .obj [("arr", .arr [.num 1, .num 2, .num 3])])])
      "foo-2.arr.-2".data = "foo-2.arr.-2".data ∧
    "foo-2.arr.-2".data ≠ "foo-2.arr.1".data :=
  ⟨rfl, rfl, by decide⟩

/-- Witness for C8 at an array of length 3 with index -2, resolved to 1. -/
theorem processNegativeIndex_resolves_witness :
    processNegativeIndexL (.obj [("arr", .arr [.num 1, .num 2, .num 3])])
      ("arr".data ++ '.' :: '-' :: (natDigits 2 ++ [])) =
      "arr".data ++ '.' :: (natDigits 1 ++ []) := by
  have h := processNegativeIndex_resolves (.obj [("arr", .arr [.num 1, .num 2, .num 3])])
    "arr".data [] 2 [.num 1, .num 2, .num 3] (by omega) (by decide) (by decide) (by decide)
    (fun c hc => by simp at hc) rfl
  simpa using h

/- ## Theorems about the sensitive-information mask (claim C10) -/

/- ## Character-class and scanner lemmas for the mask (claim C10) -/
theorem isAlpha_not_digit (c : Char) (h : c.isAlpha = true) : c.isDigit = false := by
  revert h
  simp [Char.isAlpha, Char.isUpper, Char.isLower, Char.isDigit, Char.le_def]
  intro h1 h2
  have h2x : 48 ≤ c.val.toNat := h2
  show (57 : UInt32).toNat < c.val.toNat
  have e57 : (57 : UInt32).toNat = 57 := rfl
  rw [e57]
  rcases h1 with ⟨ha, hb⟩ | ⟨ha, hb⟩
  · have hax : 65 ≤ c.val.toNat := ha
    have hbx : c.val.toNat ≤ 90 := hb
    omega
  · have hax : 97 ≤ c.val.toNat := ha
    have hbx : c.val.toNat ≤ 122 := hb
    omega

theorem isAlpha_isWordChar (c : Char) (h : c.isAlpha = true) : isWordChar c = true := by
  simp [isWordChar, Char.isAlphanum, h]

theorem isAlpha_runChar (c : Char) (h : c.isAlpha = true) :
    (c.isAlphanum || c = '-') = true := by
  simp [Char.isAlphanum, h]

theorem takeWhile_of_all (p : Char → Bool) :
    ∀ (l : List Char), (∀ c ∈ l, p c = true) → l.takeWhile p = l := by
  intro l
  induction l with
  | nil => intro _; rfl
  | cons c rest ih =>
    intro h
    simp only [List.takeWhile, h c (List.mem_cons_self c rest)]
    rw [ih (fun d hd => h d (List.mem_cons_of_mem c hd))]

/- The URL pass is the identity on colon-free text. -/
theorem isPrefixOf_mem : ∀ (pat s : List Char) (c : Char),
    pat.isPrefixOf s = true → c ∈ pat → c ∈ s := by
  intro pat
  induction pat with
  | nil => intro s c _ hc; exact absurd hc (List.not_mem_nil c)
  | cons p pr ih =>
    intro s c hpre hc
    cases s with
    | nil => simp [List.isPrefixOf] at hpre
    | cons a rest =>
      simp only [List.isPrefixOf, Bool.and_eq_true, beq_iff_eq] at hpre
      rcases List.mem_cons.mp hc with hc | hc
      · rw [hc, hpre.1]
        exact List.mem_cons_self a rest
      · exact List.mem_cons_of_mem a (ih rest c hpre.2 hc)

theorem schemeAt_none (s : List Char) (h : ':' ∉ s) : schemeAt s = none := by
  rw [schemeAt, if_neg, if_neg]
  · intro hpre
    exact h (isPrefixOf_mem _ s ':' hpre (by decide))
  · intro hpre
    exact h (isPrefixOf_mem _ s ':' hpre (by decide))

theorem urlMatchAt_none (s : List Char) (h : ':' ∉ s) : urlMatchAt s = none := by
  rw [urlMatchAt, schemeAt_none s h]

theorem maskURLsGo_id : ∀ (fuel : Nat) (s : List Char), ':' ∉ s →
    maskURLsGo fuel s = s := by
  intro fuel
  induction fuel with
  | zero => intro s _; rfl
  | succ f ih =>
    intro s hs
    cases s with
    | nil => rfl
    | cons c rest =>
      rw [maskURLsGo, urlMatchAt_none (c :: rest) hs]
      rw [ih rest (fun hm => hs (List.mem_cons_of_mem c hm))]

/- The IP pass is the identity on digit-free text. -/
theorem ipMatchAt_none (s : List Char) (h : ∀ c, s.head? = some c → c.isDigit = false) :
    ipMatchAt s = none := by
  have hoct : octetAt s = none := by
    rw [octetAt]
    cases s with
    | nil => rfl
    | cons c rest =>
      simp only [List.takeWhile, h c rfl]
      rfl
  rw [ipMatchAt, hoct]

theorem maskIPsGo_id : ∀ (fuel : Nat) (b : Bool) (s : List Char),
    (∀ c ∈ s, c.isDigit = false) → maskIPsGo fuel b s = s := by
  intro fuel
  induction fuel with
  | zero => intro b s _; rfl
  | succ f ih =>
    intro b s hs
    cases s with
    | nil => rfl
    | cons c rest =>
      have hrec := ih (isWordChar c) rest (fun d hd => hs d (List.mem_cons_of_mem c hd))
      have hh : ∀ d, (c :: rest).head? = some d → d.isDigit = false := by
        intro d hd
        have hcd : c = d := by simpa using hd
        rw [← hcd]
        exact hs c (List.mem_cons_self c rest)
      cases b with
      | true => simp [maskIPsGo, hrec]
      | false => simp [maskIPsGo, ipMatchAt_none (c :: rest) hh, hrec]

/- The domain pass on an email-shaped string masks exactly the domain. -/
theorem matchDomainCoreAux_stop (fuel : Nat) (wl rest2 : List Char)
    (hwl : ∀ c ∈ wl, (c.isAlphanum || c = '-') = true)
    (hhead : ∀ c, rest2.head? = some c → ((c.isAlphanum || c = '-') = false ∧ c ≠ '.')) :
    matchDomainCoreAux fuel (wl ++ rest2) = none := by
  cases fuel with
  | zero => rfl
  | succ f =>
    rw [matchDomainCoreAux]
    rw [if_neg]
    intro hcond
    have htw : (wl ++ rest2).takeWhile (fun c => c.isAlphanum || c = '-') = wl :=
      takeWhile_append_all _ wl rest2 hwl (fun c hc => (hhead c hc).1)
    rw [htw, List.drop_left] at hcond
    rcases hcond with ⟨_, hdotc⟩
    cases rest2 with
    | nil => simp at hdotc
    | cons r rs =>
      have hr : r = '.' := by simpa using hdotc
      exact absurd hr (hhead r rfl).2

theorem maskDomainsGo_nil (fuel : Nat) (b : Bool) : maskDomainsGo fuel b [] = [] := by
  cases fuel <;> rfl

theorem maskDomainsGo_wordrun :
    ∀ (l : List Char), (∀ c ∈ l, isWordChar c = true) →
      ∀ (fuel : Nat) (t : List Char), l.length < fuel →
        maskDomainsGo fuel true (l ++ t) = l ++ maskDomainsGo (fuel - l.length) true t := by
  intro l
  induction l with
  | nil =>
    intro _ fuel t _
    simp
  | cons c l2 ih =>
    intro hl fuel t hfuel
    cases fuel with
    | zero => omega
    | succ f =>
      have hstep : maskDomainsGo (f + 1) true ((c :: l2) ++ t) =
          c :: maskDomainsGo f (isWordChar c) (l2 ++ t) := rfl
      rw [hstep, hl c (List.mem_cons_self c l2),
        ih (fun d hd => hl d (List.mem_cons_of_mem c hd)) f t (by simp at hfuel; omega)]
      have harith : f - l2.length = f + 1 - (c :: l2).length := by
        simp only [List.length_cons]
        omega
      rw [harith]
      simp

theorem maskDomainsGo_at_sign (f : Nat) (t : List Char) :
    maskDomainsGo (f + 1) true ('@' :: t) = '@' :: maskDomainsGo f false t := by
  have hstep : maskDomainsGo (f + 1) true ('@' :: t) =
      '@' :: maskDomainsGo f (isWordChar '@') t := rfl
  rw [hstep]
  rfl

theorem matchDomainCoreAux_alpha_tail (tld : List Char)
    (htlda : ∀ c ∈ tld, c.isAlpha = true) :
    ∀ f, matchDomainCoreAux f tld = none := by
  intro f
  cases f with
  | zero => rfl
  | succ f2 =>
    rw [matchDomainCoreAux, if_neg]
    intro hcond
    have htw : tld.takeWhile (fun c => c.isAlphanum || c = '-') = tld :=
      takeWhile_of_all _ tld (fun c hc => isAlpha_runChar c (htlda c hc))
    rw [htw, List.drop_length] at hcond
    simp at hcond

theorem tldAt_all_alpha (tld : List Char) (htlda : ∀ c ∈ tld, c.isAlpha = true)
    (hlen : 2 ≤ tld.length) : tldAt tld = some tld := by
  rw [tldAt]
  have htw : tld.takeWhile Char.isAlpha = tld := takeWhile_of_all _ tld htlda
  rw [htw, List.drop_length]
  rw [if_pos]
  simp [hlen]

theorem mem_of_getLast?_eq : ∀ (l : List Char) (d : Char), l.getLast? = some d → d ∈ l := by
  intro l
  induction l with
  | nil => intro d hd; simp at hd
  | cons x t ih =>
    intro d hd
    cases t with
    | nil =>
      have : x = d := by simpa using hd
      rw [← this]
      exact List.mem_cons_self x []
    | cons y t2 =>
      rw [List.getLast?_cons_cons] at hd
      exact List.mem_cons_of_mem x (ih d hd)

theorem matchDomainCoreAux_label_tld (label tld : List Char)
    (hlab : label ≠ []) (hlaba : ∀ c ∈ label, c.isAlpha = true) (hlen : label.length ≤ 63)
    (htld : 2 ≤ tld.length) (htlda : ∀ c ∈ tld, c.isAlpha = true) :
    ∀ F, matchDomainCoreAux (F + 1) (label ++ '.' :: tld) = some (label ++ '.' :: tld) := by
  intro F
  rw [matchDomainCoreAux]
  have htw : (label ++ '.' :: tld).takeWhile (fun c => c.isAlphanum || c = '-') = label :=
    takeWhile_append_all _ label ('.' :: tld)
      (fun c hc => isAlpha_runChar c (hlaba c hc))
      (fun c hc => by
        have hcd : '.' = c := by simpa using hc
        rw [← hcd]
        rfl)
  rw [htw]
  have hok : okLabel label = true := by
    cases label with
    | nil => exact absurd rfl hlab
    | cons lc lrest =>
      have hhead : lc.isAlphanum = true := by
        have h := hlaba lc (List.mem_cons_self lc lrest)
        simp [Char.isAlphanum, h]
      cases hgl : (lc :: lrest).getLast? with
      | none => simp at hgl
      | some d =>
        have hdm : d ∈ lc :: lrest := mem_of_getLast?_eq _ d hgl
        have hdal : d.isAlphanum = true := by
          have h := hlaba d hdm
          simp [Char.isAlphanum, h]
        simp only [okLabel, hgl, hhead, hdal, Bool.true_and, Bool.and_eq_true,
          decide_eq_true_eq]
        simp only [List.length_cons] at hlen ⊢
        omega
  rw [List.drop_left]
  rw [if_pos ⟨hok, rfl⟩]
  have hdrop : (label ++ '.' :: tld).drop (label.length + 1) = tld := by
    rw [show label ++ '.' :: tld = (label ++ ['.']) ++ tld by simp]
    rw [List.drop_left' (by simp)]
  rw [hdrop, matchDomainCoreAux_alpha_tail tld htlda F, tldAt_all_alpha tld htlda htld]

theorem maskDomainsGo_at_domain (label tld : List Char) (F : Nat)
    (hlab : label ≠ []) (hlaba : ∀ c ∈ label, c.isAlpha = true) (hlen : label.length ≤ 63)
    (htld : 2 ≤ tld.length) (htlda : ∀ c ∈ tld, c.isAlpha = true) :
    maskDomainsGo (F + 1) false (label ++ '.' :: tld) =
      (maskHostForPlainDomain (String.mk (label ++ '.' :: tld))).data := by
  cases label with
  | nil => exact absurd rfl hlab
  | cons lc lrest =>
    have hmatch : matchDomainCore (lc :: (lrest ++ '.' :: tld)) =
        some ((lc :: lrest) ++ '.' :: tld) :=
      matchDomainCoreAux_label_tld (lc :: lrest) tld hlab hlaba hlen htld htlda
        ((lc :: (lrest ++ '.' :: tld)).length)
    have hstep : maskDomainsGo (F + 1) false ((lc :: lrest) ++ '.' :: tld) =
        match matchDomainCore (lc :: (lrest ++ '.' :: tld)) with
        | some m =>
          (maskHostForPlainDomain (String.mk m)).data ++
            maskDomainsGo F true ((lc :: (lrest ++ '.' :: tld)).drop m.length)
        | none => lc :: maskDomainsGo F (isWordChar lc) (lrest ++ '.' :: tld) := rfl
    rw [hstep, hmatch]
    show (maskHostForPlainDomain (String.mk ((lc :: lrest) ++ '.' :: tld))).data ++
        maskDomainsGo F true
          ((lc :: (lrest ++ '.' :: tld)).drop ((lc :: lrest) ++ '.' :: tld).length) = _
    rw [show (lc :: (lrest ++ '.' :: tld)) = ((lc :: lrest) ++ '.' :: tld) from rfl,
      List.drop_length, maskDomainsGo_nil, List.append_nil]

theorem splitOnChar_mem_flat (sep : Char) :
    ∀ (l part : List Char), part ∈ splitOnChar sep l → ∀ c ∈ part, c ∈ l := by
  intro l
  induction l with
  | nil =>
    intro part hp c hc
    have hempty : part = [] := by simpa [splitOnChar] using hp
    rw [hempty] at hc
    simp at hc
  | cons x rest ih =>
    intro part hp c hc
    by_cases hx : x = sep
    · rw [splitOnChar, if_pos hx] at hp
      rcases List.mem_cons.mp hp with hp | hp
      · rw [hp] at hc
        simp at hc
      · exact List.mem_cons_of_mem x (ih part hp c hc)
    · rw [splitOnChar, if_neg hx] at hp
      cases hrec : splitOnChar sep rest with
      | nil =>
        rw [hrec] at hp
        have hpart : part = [x] := by simpa using hp
        rw [hpart] at hc
        have hcx : c = x := by simpa using hc
        rw [hcx]
        exact List.mem_cons_self x rest
      | cons g gs =>
        rw [hrec] at hp
        rcases List.mem_cons.mp hp with hp | hp
        · rw [hp] at hc
          rcases List.mem_cons.mp hc with hc | hc
          · rw [hc]
            exact List.mem_cons_self x rest
          · have hg : g ∈ splitOnChar sep rest := by
              rw [hrec]
              exact List.mem_cons_self g gs
            exact List.mem_cons_of_mem x (ih g hg c hc)
        · have hp2 : part ∈ splitOnChar sep rest := by
            rw [hrec]
            exact List.mem_cons_of_mem g hp
          exact List.mem_cons_of_mem x (ih part hp2 c hc)

theorem maskHostTail_mem (parts : List String) :
    ∀ part ∈ maskHostTail parts, part ∈ parts := by
  intro part hp
  rw [maskHostTail] at hp
  by_cases hlt : parts.length < 2
  · rw [if_pos hlt] at hp
    exact hp
  · rw [if_neg hlt] at hp
    cases hrev : parts.reverse with
    | nil =>
      rw [hrev] at hp
      exact hp
    | cons a t =>
      cases t with
      | nil =>
        rw [hrev] at hp
        exact hp
      | cons b t2 =>
        rw [hrev] at hp
        have hamem : a ∈ parts := List.mem_reverse.mp (hrev ▸ List.mem_cons_self a (b :: t2))
        have hbmem : b ∈ parts := List.mem_reverse.mp
          (hrev ▸ List.mem_cons_of_mem a (List.mem_cons_self b t2))
        have hp2 : part ∈
            (if (decide (a.length = 2) && decide (b.length ≤ 3)) = true
             then [b, a] else [a]) := hp
        by_cases hcc : (decide (a.length = 2) && decide (b.length ≤ 3)) = true
        · rw [if_pos hcc] at hp2
          rcases List.mem_cons.mp hp2 with hp3 | hp3
          · rw [hp3]
            exact hbmem
          · have hpa : part = a := by simpa using hp3
            rw [hpa]
            exact hamem
        · rw [if_neg hcc] at hp2
          have hpa : part = a := by simpa using hp2
          rw [hpa]
          exact hamem

theorem joinSep_mem (sep : String) :
    ∀ (ss : List String) (c : Char), c ∈ (joinSep sep ss).data →
      c ∈ sep.data ∨ ∃ s ∈ ss, c ∈ s.data := by
  intro ss
  induction ss with
  | nil =>
    intro c hc
    simp [joinSep] at hc
  | cons s1 rest ih =>
    intro c hc
    cases rest with
    | nil =>
      right
      exact ⟨s1, List.mem_cons_self s1 [], by simpa [joinSep] using hc⟩
    | cons s2 rest2 =>
      have hc2 : c ∈ s1.data ++ (sep.data ++ (joinSep sep (s2 :: rest2)).data) := by
        have hshape : (joinSep sep (s1 :: s2 :: rest2)).data =
            s1.data ++ (sep.data ++ (joinSep sep (s2 :: rest2)).data) := by
          show (s1 ++ sep ++ joinSep sep (s2 :: rest2)).data = _
          show s1.data ++ sep.data ++ (joinSep sep (s2 :: rest2)).data = _
          rw [List.append_assoc]
        rw [← hshape]
        exact hc
      rcases List.mem_append.mp hc2 with h | h
      · right
        exact ⟨s1, List.mem_cons_self s1 _, h⟩
      · rcases List.mem_append.mp h with h | h
        · left
          exact h
        · rcases ih c h with h2 | ⟨s, hs, hcs⟩
          · left
            exact h2
          · right
            exact ⟨s, List.mem_cons_of_mem s1 hs, hcs⟩

theorem maskHostForPlainDomain_chars (d : String) (c : Char)
    (hc : c ∈ (maskHostForPlainDomain d).data) :
    c = '*' ∨ c = '.' ∨ c ∈ d.data := by
  rw [maskHostForPlainDomain] at hc
  by_cases hlt : ((splitOnChar '.' d.data).map String.mk).length < 2
  · rw [if_pos hlt] at hc
    right; right
    exact hc
  · rw [if_neg hlt] at hc
    set parts := (splitOnChar '.' d.data).map String.mk with hparts
    set tail := maskHostTail parts with htail
    set numStars := max (parts.length - tail.length) 1 with hns
    have hshape : (joinSep "." (List.replicate numStars "***") ++ "." ++
        joinSep "." tail).data =
        (joinSep "." (List.replicate numStars "***")).data ++
          ('.' :: (joinSep "." tail).data) := by
      show (joinSep "." (List.replicate numStars "***")).data ++ ".".data ++
        (joinSep "." tail).data = _
      rw [List.append_assoc]
      rfl
    rw [hshape] at hc
    rcases List.mem_append.mp hc with h | h
    · rcases joinSep_mem "." (List.replicate numStars "***") c h with h2 | ⟨s, hs, hcs⟩
      · right; left
        simpa using h2
      · left
        have hs3 : s = "***" := List.eq_of_mem_replicate hs
        rw [hs3] at hcs
        simpa using hcs
    · rcases List.mem_cons.mp h with h2 | h2
      · right; left
        exact h2
      · rcases joinSep_mem "." tail c h2 with h3 | ⟨s, hs, hcs⟩
        · right; left
          simpa using h3
        · have hsp : s ∈ parts := maskHostTail_mem parts s hs
          rw [hparts] at hsp
          rcases List.mem_map.mp hsp with ⟨part, hpart, hmk⟩
          right; right
          have hcp : c ∈ part := by
            rw [← hmk] at hcs
            exact hcs
          exact splitOnChar_mem_flat '.' d.data part hpart c hcp

theorem maskHostForPlainDomain_no_digit (d : String)
    (hd : ∀ c ∈ d.data, c.isDigit = false) :
    ∀ c ∈ (maskHostForPlainDomain d).data, c.isDigit = false := by
  intro c hc
  rcases maskHostForPlainDomain_chars d c hc with h | h | h
  · rw [h]; rfl
  · rw [h]; rfl
  · exact hd c h

theorem MaskSensitiveInfo_email (lp label tld : List Char)
    (hl : lp ≠ []) (hla : ∀ c ∈ lp, c.isAlpha = true)
    (hlab : label ≠ []) (hlaba : ∀ c ∈ label, c.isAlpha = true) (hlen : label.length ≤ 63)
    (htld : 2 ≤ tld.length) (htlda : ∀ c ∈ tld, c.isAlpha = true) :
    MaskSensitiveInfo (String.mk (lp ++ '@' :: (label ++ '.' :: tld))) =
      String.mk (lp ++ '@' ::
        (maskHostForPlainDomain (String.mk (label ++ '.' :: tld))).data) := by
  have hcolon : ':' ∉ lp ++ '@' :: (label ++ '.' :: tld) := by
    intro hm
    rcases List.mem_append.mp hm with h | h
    · exact absurd (hla ':' h) (by decide)
    · rcases List.mem_cons.mp h with h | h
      · exact absurd h (by decide)
      · rcases List.mem_append.mp h with h | h
        · exact absurd (hlaba ':' h) (by decide)
        · rcases List.mem_cons.mp h with h | h
          · exact absurd h (by decide)
          · exact absurd (htlda ':' h) (by decide)
  have hu : maskURLsGo ((lp ++ '@' :: (label ++ '.' :: tld)).length + 1)
      (lp ++ '@' :: (label ++ '.' :: tld)) = lp ++ '@' :: (label ++ '.' :: tld) :=
    maskURLsGo_id _ _ hcolon
  have hdomain : maskDomainsGo ((lp ++ '@' :: (label ++ '.' :: tld)).length + 1) false
      (lp ++ '@' :: (label ++ '.' :: tld)) =
      lp ++ '@' :: (maskHostForPlainDomain (String.mk (label ++ '.' :: tld))).data := by
    cases lp with
    | nil => exact absurd rfl hl
    | cons c0 l2 =>
      have hla2 : ∀ c ∈ c0 :: l2, c.isAlpha = true := hla
      have hstop : matchDomainCore (c0 :: (l2 ++ '@' :: (label ++ '.' :: tld))) = none := by
        rw [matchDomainCore]
        exact matchDomainCoreAux_stop _ (c0 :: l2) ('@' :: (label ++ '.' :: tld))
          (fun c hc => isAlpha_runChar c (hla2 c hc))
          (fun c hc => by
            have hca : '@' = c := by simpa using hc
            rw [← hca]
            exact ⟨by decide, by decide⟩)
      simp only [List.cons_append, List.length_cons]
      rw [maskDomainsGo, if_neg Bool.false_ne_true, hstop]
      show c0 :: maskDomainsGo ((l2 ++ '@' :: (label ++ '.' :: tld)).length + 1)
          (isWordChar c0) (l2 ++ '@' :: (label ++ '.' :: tld)) = _
      rw [isAlpha_isWordChar c0 (hla2 c0 (List.mem_cons_self c0 l2))]
      rw [maskDomainsGo_wordrun l2 (fun c hc => isAlpha_isWordChar c
            (hla2 c (List.mem_cons_of_mem c0 hc)))
          ((l2 ++ '@' :: (label ++ '.' :: tld)).length + 1) ('@' :: (label ++ '.' :: tld))
          (by simp only [List.length_append, List.length_cons]; omega)]
      have harith : (l2 ++ '@' :: (label ++ '.' :: tld)).length + 1 - l2.length =
          (label ++ '.' :: tld).length + 1 + 1 := by
        simp only [List.length_append, List.length_cons]
        omega
      rw [harith, maskDomainsGo_at_sign]
      have hdom : (label ++ '.' :: tld).length + 1 = ((label ++ '.' :: tld).length) + 1 := rfl
      rw [maskDomainsGo_at_domain label tld ((label ++ '.' :: tld).length)
        hlab hlaba hlen htld htlda]
  have hnodig : ∀ c ∈ lp ++ '@' ::
      (maskHostForPlainDomain (String.mk (label ++ '.' :: tld))).data, c.isDigit = false := by
    intro c hc
    rcases List.mem_append.mp hc with h | h
    · exact isAlpha_not_digit c (hla c h)
    · rcases List.mem_cons.mp h with h | h
      · rw [h]; rfl
      · refine maskHostForPlainDomain_no_digit _ ?_ c h
        intro d hd
        rcases List.mem_append.mp hd with h2 | h2
        · exact isAlpha_not_digit d (hlaba d h2)
        · rcases List.mem_cons.mp h2 with h2 | h2
          · rw [h2]; rfl
          · exact isAlpha_not_digit d (htlda d h2)
  simp only [MaskSensitiveInfo]
  rw [hu, hdomain, maskIPsGo_id _ false _ hnodig]

/-- C10 (amended): the mask redacts URLs (scheme preserved, host masked to a
retained TLD tail, path components and query values masked), bare domains,
and IPv4 addresses — exhibited on representative inputs — while for every
alphabetic email address `lp@label.tld` it masks only the domain and emits
the local part verbatim. -/
theorem MaskSensitiveInfo_behaviour :
    (∀ lp label tld : List Char, lp ≠ [] → (∀ c ∈ lp, c.isAlpha = true) →
      label ≠ [] → (∀ c ∈ label, c.isAlpha = true) → label.length ≤ 63 →
      2 ≤ tld.length → (∀ c ∈ tld, c.isAlpha = true) →
      MaskSensitiveInfo (String.mk (lp ++ '@' :: (label ++ '.' :: tld))) =
        String.mk (lp ++ '@' ::
          (maskHostForPlainDomain (String.mk (label ++ '.' :: tld))).data)) ∧
    MaskSensitiveInfo "http://example.com" = "http://***.com" ∧
    MaskSensitiveInfo "https://api.test.org/v1/users/123?key=secret" =
      "https://***.org/***/***/***?key=***" ∧
    MaskSensitiveInfo "api.openai.com" = "***.***.com" ∧
    MaskSensitiveInfo "192.168.1.1" = "***.***.***.***" ∧
    MaskSensitiveInfo "error contacting www.openai.com at 10.0.0.1" =
      "error contacting ***.***.com at ***.***.***.***" :=
  ⟨MaskSensitiveInfo_email, rfl, rfl, rfl, rfl, rfl⟩

/-- Witness for C10 at the email `user@example.com`. -/
theorem MaskSensitiveInfo_behaviour_witness :
    MaskSensitiveInfo (String.mk ("user".data ++ '@' :: ("example".data ++ '.' :: "com".data))) =
      String.mk ("user".data ++ '@' ::
        (maskHostForPlainDomain (String.mk ("example".data ++ '.' :: "com".data))).data) :=
  MaskSensitiveInfo_behaviour.1 "user".data "example".data "com".data
    (by decide) (by decide) (by decide) (by decide) (by decide) (by decide) (by decide)
